import Mathlib

/-!
Verification of the typst content-realization core and numbering engine.

Strings are modelled as `List Char` (Lean strings are wrappers around
`List Char`); machine integers (`usize`, `u8`) are modelled as `Nat` with
the overflow-relevant operations made explicit.
-/

set_option maxHeartbeats 1000000

namespace Typst

/-- Text case, from `crate::text::Case`. -/
inductive Case where
  | lower
  | upper
deriving DecidableEq, Repr

/-- The four counting-symbol kinds of `NumberingKind` in
`src/library/src/meta/numbering.rs`. -/
inductive NumberingKind where
  | arabic
  | letter
  | roman
  | symbol
deriving DecidableEq, Repr

namespace NumberingKind

/-- `NumberingKind::from_char`: create a numbering kind from a lowercase
character. -/
def fromChar (c : Char) : Option NumberingKind :=
  if c = '1' then some .arabic
  else if c = 'a' then some .letter
  else if c = 'i' then some .roman
  else if c = '*' then some .symbol
  else none

/-- `NumberingKind::to_char`: the lowercase character for this kind. -/
def toChar : NumberingKind → Char
  | .arabic => '1'
  | .letter => 'a'
  | .roman => 'i'
  | .symbol => '*'

end NumberingKind

/-- Rust `u8::to_ascii_uppercase` on a byte value. -/
def asciiUpperByte (b : Nat) : Nat :=
  if 97 ≤ b ∧ b ≤ 122 then b - 32 else b

/-- The loop of the `Letter` arm of `NumberingKind::apply`: starting from
`m = numbering - 1`, repeatedly push the byte for `m % 26` (case applied at
push time, as in the source) and divide `m` by 26, stopping when the
quotient reaches zero.  Bytes are produced least-significant first, exactly
as the Rust loop pushes them.  The loop is written with explicit fuel so
that it is structurally recursive; a fuel of `m + 1` can never run out
because the quotient strictly decreases (the number of iterations is the
number of base-26 digits of `m`, at most `m + 1`). -/
def letterBytesCore (case : Case) : Nat → Nat → List Nat
  | 0, _ => []
  | f + 1, m =>
    let ch := 'a'.toNat + m % 26
    let b := match case with
      | .lower => ch
      | .upper => asciiUpperByte ch
    if m / 26 = 0 then [b] else b :: letterBytesCore case f (m / 26)

/-- The greedy roman-numeral table of `NumberingKind::apply`, with the
combining overline U+0305 written explicitly. -/
def romanTable : List (List Char × Nat) :=
  [(['M', Char.ofNat 0x305], 1000000),
   (['D', Char.ofNat 0x305], 500000),
   (['C', Char.ofNat 0x305], 100000),
   (['L', Char.ofNat 0x305], 50000),
   (['X', Char.ofNat 0x305], 10000),
   (['V', Char.ofNat 0x305], 5000),
   (['I', Char.ofNat 0x305, 'V', Char.ofNat 0x305], 4000),
   (['M'], 1000),
   (['C', 'M'], 900),
   (['D'], 500),
   (['C', 'D'], 400),
   (['C'], 100),
   (['X', 'C'], 90),
   (['L'], 50),
   (['X', 'L'], 40),
   (['X'], 10),
   (['I', 'X'], 9),
   (['V'], 5),
   (['I', 'V'], 4),
   (['I'], 1)]

/-- Case mapping applied per character in the `Roman` arm: lowercase maps
each character via Unicode lowercase (which on the table's characters
agrees with ASCII lowercase; the combining overline has no lowercase
mapping), uppercase pushes the character unchanged. -/
def romanCase (case : Case) (c : Char) : Char :=
  match case with
  | .lower => c.toLower
  | .upper => c

/-- The greedy subtraction loop of the `Roman` arm: for each table entry in
order, the inner `while numbering >= value` loop appends the entry's name
exactly `numbering / value` times and leaves remainder `numbering % value`
(all table values are positive). -/
def romanFold (case : Case) : List (List Char × Nat) → Nat → List Char
  | [], _ => []
  | (name, value) :: rest, n =>
    (List.replicate (n / value) (name.map (romanCase case))).flatten
      ++ romanFold case rest (n % value)

/-- The symbol list of the `Symbol` arm. -/
def symbolsList : List Char := ['*', '†', '‡', '§', '¶', '‖']

/-- `NumberingKind::apply`: render number `n` in the given kind and case. -/
def NumberingKind.apply (k : NumberingKind) (n : Nat) (case : Case) : List Char :=
  match k with
  | .arabic => Nat.toDigits 10 n
  | .letter =>
    if n = 0 then ['-']
    else ((letterBytesCore case ((n - 1) + 1) (n - 1)).reverse).map Char.ofNat
  | .roman =>
    if n = 0 then ['N'] else romanFold case romanTable n
  | .symbol =>
    if n = 0 then ['-']
    else List.replicate ((n - 1) / symbolsList.length + 1)
      (symbolsList.getD ((n - 1) % symbolsList.length) '*')

/-- Checked variant of the `Letter` loop: the `u8::try_from(m % 26).unwrap()`
of the source is modelled as a guard `m % 26 < 256` (the exact success
condition of `u8::try_from`), and running out of fuel yields `none`. -/
def letterBytesCheckedCore (case : Case) : Nat → Nat → Option (List Nat)
  | 0, _ => none
  | f + 1, m =>
    if m % 26 < 256 then
      let ch := 'a'.toNat + m % 26
      let b := match case with
        | .lower => ch
        | .upper => asciiUpperByte ch
      if m / 26 = 0 then some [b]
      else do
        let rest ← letterBytesCheckedCore case f (m / 26)
        some (b :: rest)
    else none

/-- Checked variant of `NumberingKind::apply` in which every potentially
panicking operation of the source is made explicit as an `Option` guard:
the `u8::try_from` unwrap, the `String::from_utf8` unwrap (guarded by the
sufficient condition that every byte is ASCII, which is exactly what the
source relies on), and the `SYMBOLS[(n-1) % len]` index. -/
def NumberingKind.applyChecked (k : NumberingKind) (n : Nat) (case : Case) :
    Option (List Char) :=
  match k with
  | .arabic => some (Nat.toDigits 10 n)
  | .letter =>
    if n = 0 then some ['-']
    else do
      let bytes ← letterBytesCheckedCore case ((n - 1) + 1) (n - 1)
      if bytes.all (fun b => b < 128) then
        some ((bytes.reverse).map Char.ofNat)
      else none
  | .roman =>
    if n = 0 then some ['N'] else some (romanFold case romanTable n)
  | .symbol =>
    if n = 0 then some ['-']
    else
      if h : (n - 1) % symbolsList.length < symbolsList.length then
        some (List.replicate ((n - 1) / symbolsList.length + 1)
          (symbolsList.get ⟨(n - 1) % symbolsList.length, h⟩))
      else none

/-- `NumberingPattern` from `src/library/src/meta/numbering.rs`: pieces of
(prefix text, kind, case), one final suffix, and a `trimmed` flag. -/
structure NumberingPattern where
  pieces : List (List Char × NumberingKind × Case)
  suffix : List Char
  trimmed : Bool
deriving DecidableEq, Repr

namespace NumberingPattern

/-- `NumberingPattern::pieces`: how many counting symbols the pattern has. -/
def piecesCount (p : NumberingPattern) : Nat :=
  p.pieces.length

/-- One emission of the first loop of `NumberingPattern::apply`: for the
pair of piece and number at position `x.1`, push the prefix (skipped at
index 0 when `trimmed`) and the rendered counter. -/
def headSeg (p : NumberingPattern)
    (x : Nat × ((List Char × NumberingKind × Case) × Nat)) :
    List Char × List Char :=
  ((if x.1 > 0 || !p.trimmed then x.2.1.1 else []),
   NumberingKind.apply x.2.1.2.1 x.2.2 x.2.1.2.2)

/-- One emission of the second loop of `NumberingPattern::apply`: for an
overflow number with the cycled last piece, push the prefix (or the
pattern suffix when the prefix is empty) and the rendered counter. -/
def tailSeg (p : NumberingPattern) (pre : List Char) (kind : NumberingKind)
    (case : Case) (n : Nat) : List Char × List Char :=
  ((if pre.isEmpty then p.suffix else pre), kind.apply n case)

/-- The sequence of (separator text, rendered counter) pairs that
`NumberingPattern::apply` emits, in order: the first loop pairs pieces with
numbers index-wise; the second loop cycles the last piece over the
remaining numbers.  `apply` is the concatenation of these segments
followed by the suffix (when not `trimmed`), so each segment contributes
exactly one rendered counter to the output. -/
def segments (p : NumberingPattern) (numbers : List Nat) :
    List (List Char × List Char) :=
  ((p.pieces.zip numbers).enum.map (headSeg p))
  ++ (match p.pieces.getLast? with
      | none => []
      | some (pre, kind, case) =>
        (numbers.drop p.pieces.length).map (tailSeg p pre kind case))

/-- `NumberingPattern::apply`: apply the pattern to the given numbers. -/
def apply (p : NumberingPattern) (numbers : List Nat) : List Char :=
  ((p.segments numbers).map (fun s => s.1 ++ s.2)).flatten
    ++ (if !p.trimmed then p.suffix else [])

/-- Checked variant of `headSeg`. -/
def headSegChecked (p : NumberingPattern)
    (x : Nat × ((List Char × NumberingKind × Case) × Nat)) :
    Option (List Char × List Char) := do
  let r ← NumberingKind.applyChecked x.2.1.2.1 x.2.2 x.2.1.2.2
  some ((if x.1 > 0 || !p.trimmed then x.2.1.1 else []), r)

/-- Checked variant of `tailSeg`. -/
def tailSegChecked (p : NumberingPattern) (pre : List Char)
    (kind : NumberingKind) (case : Case) (n : Nat) :
    Option (List Char × List Char) := do
  let r ← kind.applyChecked n case
  some ((if pre.isEmpty then p.suffix else pre), r)

/-- Checked variant of the two loops of `NumberingPattern::apply`,
threading the checked kind rendering. -/
def segmentsChecked (p : NumberingPattern) (numbers : List Nat) :
    Option (List (List Char × List Char)) := do
  let first ← ((p.pieces.zip numbers).enum).mapM (headSegChecked p)
  let rest ← (match p.pieces.getLast? with
      | none => some []
      | some (pre, kind, case) =>
        (numbers.drop p.pieces.length).mapM (tailSegChecked p pre kind case))
  some (first ++ rest)

/-- Checked variant of `NumberingPattern::apply`, in which every
potentially panicking operation of the rendering kinds is an explicit
`Option` guard. -/
def applyChecked (p : NumberingPattern) (numbers : List Nat) :
    Option (List Char) := do
  let segs ← p.segmentsChecked numbers
  some ((segs.map (fun s => s.1 ++ s.2)).flatten
    ++ (if !p.trimmed then p.suffix else []))

end NumberingPattern

/-- The character walk of `NumberingPattern::from_str`: each counter
character closes a piece whose prefix is the text accumulated since the
previous counter (`pattern[handled..i]` in the source, accumulated here
directly as characters); the accumulator left at the end is the suffix. -/
def parseLoop :
    List Char → List Char → List (List Char × NumberingKind × Case) →
    List (List Char × NumberingKind × Case) × List Char
  | [], acc, ps => (ps, acc)
  | c :: rest, acc, ps =>
    match NumberingKind.fromChar c.toLower with
    | some kind =>
      parseLoop rest []
        (ps ++ [(acc, kind, if c.isUpper then Case.upper else Case.lower)])
    | none => parseLoop rest (acc ++ [c]) ps

/-- `NumberingPattern::from_str`: parse a pattern string; fails with
"invalid numbering pattern" when no counter character occurs. -/
def NumberingPattern.fromStr (s : List Char) :
    Except String NumberingPattern :=
  let r := parseLoop s [] []
  if r.1 = [] then .error "invalid numbering pattern"
  else .ok ⟨r.1, r.2, false⟩

/-- The counter character emitted for a piece by `cast_to_value!` for
`NumberingPattern`: the kind's character, ASCII-uppercased when the case is
upper. -/
def renderChar (k : NumberingKind) (case : Case) : Char :=
  match case with
  | .lower => k.toChar
  | .upper => k.toChar.toUpper

/-- The piece part of the rendered string form of a pattern. -/
def renderPieces (pieces : List (List Char × NumberingKind × Case)) :
    List Char :=
  (pieces.map (fun pc => pc.1 ++ [renderChar pc.2.1 pc.2.2])).flatten

/-- `cast_to_value!` for `NumberingPattern`: the rendered string form
(prefixes and counter characters in order, then the suffix). -/
def NumberingPattern.render (p : NumberingPattern) : List Char :=
  renderPieces p.pieces ++ p.suffix

/-- Modelled from the spec: the bijective base-26 encoding over `a..z`
with the most-significant digit first, the encoding §4.K and the claim
assert for the letter kind (`letter(1)="a"`, `letter(26)="z"`,
`letter(27)="aa"`).  Written with fuel for structural recursion; fuel
`n` suffices since the argument strictly decreases. -/
def bijectiveBase26Core : Nat → Nat → List Char
  | 0, _ => []
  | f + 1, n =>
    if n = 0 then []
    else bijectiveBase26Core f ((n - 1) / 26) ++ [Char.ofNat ('a'.toNat + (n - 1) % 26)]

/-- Modelled from the spec: bijective base-26 rendering of `n ≥ 1`. -/
def bijectiveBase26 (n : Nat) : List Char :=
  bijectiveBase26Core (n + 1) n

example : NumberingKind.apply .letter 1 .lower = ['a'] := by decide
example : NumberingKind.apply .letter 26 .lower = ['z'] := by decide
example : NumberingKind.apply .letter 27 .lower = ['b', 'a'] := by decide
example : bijectiveBase26 27 = ['a', 'a'] := by decide
example : NumberingKind.apply .arabic 0 .lower = ['0'] := by decide
example : NumberingKind.apply .roman 4 .upper = ['I', 'V'] := by decide
example : NumberingKind.apply .symbol 7 .lower = ['*', '*'] := by decide
example :
    NumberingPattern.fromStr ['1', '.', 'a', '.', 'i'] =
      .ok ⟨[([], .arabic, .lower), (['.'], .letter, .lower),
            (['.'], .roman, .lower)], [], false⟩ := rfl
example :
    NumberingPattern.apply
      ⟨[([], .arabic, .lower), (['.'], .letter, .lower),
        (['.'], .roman, .lower)], [], false⟩ [1, 2] = ['1', '.', 'b'] := by
  decide

/-- The pattern parsed from "1.a.i". -/
def pat1ai : NumberingPattern :=
  ⟨[([], .arabic, .lower), (['.'], .letter, .lower), (['.'], .roman, .lower)],
   [], false⟩

/-- C1: the claim asserts that the letter kind renders every `n ≥ 1` in
bijective base-26 over `a..z` (so `letter(27) = "aa"`, `letter(52) = "az"`,
`letter(53) = "ba"`).  The code instead decrements once up front and then
renders plain base-26 digits of `n - 1`, which agrees with the bijective
encoding only for `n ≤ 26`: it yields `letter(27) = "ba"`,
`letter(52) = "bz"` and `letter(53) = "ca"`, and no input ever renders as
`"aa"`‥`"az"`.  This theorem evaluates the embedded code and the
spec-modelled bijective encoding at the failing inputs. -/
theorem c1_letter_not_bijective :
    NumberingKind.apply .letter 0 .lower = ['-'] ∧
    NumberingKind.apply .letter 1 .lower = ['a'] ∧
    NumberingKind.apply .letter 26 .lower = ['z'] ∧
    NumberingKind.apply .letter 27 .lower = ['b', 'a'] ∧
    NumberingKind.apply .letter 52 .lower = ['b', 'z'] ∧
    NumberingKind.apply .letter 53 .lower = ['c', 'a'] ∧
    bijectiveBase26 27 = ['a', 'a'] ∧
    bijectiveBase26 52 = ['a', 'z'] ∧
    bijectiveBase26 53 = ['b', 'a'] ∧
    NumberingKind.apply .letter 27 .lower ≠ bijectiveBase26 27 := by
  decide

/-- C2 counterexample: applying the three-piece pattern "1.a.i" to the
single number list `[1]` renders exactly one counter (the first loop stops
when the numbers run out), not `max 1 3 = 3` as the claim states. -/
theorem c2_counterexample :
    ¬ ((pat1ai.segments [1]).length =
        max ([1] : List Nat).length pat1ai.piecesCount) := by
  decide

/-- C2 (amended): for every pattern with at least one piece (guaranteed
for every parsed pattern) and numbers `[n₁,…,n_k]`, `apply` renders
exactly `k` counters — one per number — not `max(k, pieces)`: pieces
beyond the numbers are never reached.  `apply` is the concatenation of
`segments` (each segment being one separator plus one rendered counter)
followed by the suffix. -/
theorem c2_apply_counter_count (p : NumberingPattern) (ns : List Nat)
    (h : p.pieces ≠ []) : (p.segments ns).length = ns.length := by
  unfold NumberingPattern.segments
  cases hl : p.pieces.getLast? with
  | none => exact absurd (List.getLast?_eq_none_iff.mp hl) h
  | some pc =>
    simp only [hl, List.length_append, List.length_map, List.enum_length,
      List.length_zip, List.length_drop]
    omega

/-- Witness for the amended C2 at a concrete input. -/
theorem c2_apply_counter_count_witness :
    pat1ai.pieces ≠ [] ∧ (pat1ai.segments [5, 6, 7, 8]).length = 4 :=
  ⟨by decide, c2_apply_counter_count pat1ai [5, 6, 7, 8] (by decide)⟩

theorem letterBytesCheckedCore_eq (case : Case) :
    ∀ f m, m < f →
      letterBytesCheckedCore case f m = some (letterBytesCore case f m) := by
  intro f
  induction f with
  | zero => intro m h; omega
  | succ f ih =>
    intro m h
    simp only [letterBytesCheckedCore, letterBytesCore]
    have h26 : m % 26 < 256 :=
      Nat.lt_trans (Nat.mod_lt _ (by norm_num)) (by norm_num)
    rw [if_pos h26]
    by_cases h0 : m / 26 = 0
    · rw [if_pos h0, if_pos h0]
    · rw [if_neg h0, if_neg h0]
      have hm : 0 < m := by
        rcases Nat.eq_zero_or_pos m with h1 | h1
        · subst h1; simp at h0
        · exact h1
      have hlt : m / 26 < m := Nat.div_lt_self hm (by norm_num)
      rw [ih (m / 26) (by omega)]
      rfl

theorem letterBytesCore_lt (case : Case) :
    ∀ f m b, b ∈ letterBytesCore case f m → b < 128 := by
  have hbyte : ∀ m, ∀ case : Case,
      (match case with
        | Case.lower => 'a'.toNat + m % 26
        | Case.upper => asciiUpperByte ('a'.toNat + m % 26)) < 128 := by
    intro m case
    have ha : 'a'.toNat = 97 := rfl
    have hd : m % 26 < 26 := Nat.mod_lt _ (by norm_num)
    cases case
    · simp only; omega
    · simp only [asciiUpperByte]
      split <;> omega
  intro f
  induction f with
  | zero => intro m b hb; simp [letterBytesCore] at hb
  | succ f ih =>
    intro m b hb
    simp only [letterBytesCore] at hb
    by_cases h0 : m / 26 = 0
    · rw [if_pos h0] at hb
      simp only [List.mem_singleton] at hb
      subst hb
      exact hbyte m case
    · rw [if_neg h0] at hb
      simp only [List.mem_cons] at hb
      rcases hb with hb | hb
      · subst hb; exact hbyte m case
      · exact ih (m / 26) b hb

theorem NumberingKind.applyChecked_eq (k : NumberingKind) (n : Nat)
    (case : Case) : k.applyChecked n case = some (k.apply n case) := by
  cases k
  · rfl
  · simp only [applyChecked, apply]
    by_cases h0 : n = 0
    · simp [h0]
    · rw [if_neg h0, if_neg h0,
        letterBytesCheckedCore_eq case ((n - 1) + 1) (n - 1) (by omega)]
      have hall : ((letterBytesCore case ((n - 1) + 1) (n - 1)).all
          (fun b => b < 128)) = true := by
        rw [List.all_eq_true]
        intro b hb
        simpa using letterBytesCore_lt case _ _ b hb
      simp only [Option.bind_eq_bind, Option.some_bind]
      rw [if_pos hall]
  · by_cases h0 : n = 0 <;> simp [applyChecked, apply, h0]
  · simp only [applyChecked, apply]
    by_cases h0 : n = 0
    · simp [h0]
    · rw [if_neg h0, if_neg h0]
      have h : (n - 1) % symbolsList.length < symbolsList.length :=
        Nat.mod_lt _ (by simp [symbolsList])
      rw [dif_pos h]
      simp [List.getD_eq_getElem?_getD, List.getElem?_eq_getElem h,
        List.get_eq_getElem]

theorem list_mapM_option {α β : Type} (f : α → Option β) (g : α → β)
    (l : List α) (h : ∀ x ∈ l, f x = some (g x)) :
    l.mapM f = some (l.map g) := by
  induction l with
  | nil => rfl
  | cons a l ih =>
    rw [List.mapM_cons, h a (by simp), ih (fun x hx => h x (by simp [hx]))]
    rfl

theorem NumberingPattern.headSegChecked_eq (p : NumberingPattern)
    (x : Nat × ((List Char × NumberingKind × Case) × Nat)) :
    p.headSegChecked x = some (p.headSeg x) := by
  unfold NumberingPattern.headSegChecked NumberingPattern.headSeg
  rw [NumberingKind.applyChecked_eq]
  rfl

theorem NumberingPattern.tailSegChecked_eq (p : NumberingPattern)
    (pre : List Char) (kind : NumberingKind) (case : Case) (n : Nat) :
    p.tailSegChecked pre kind case n = some (p.tailSeg pre kind case n) := by
  unfold NumberingPattern.tailSegChecked NumberingPattern.tailSeg
  rw [NumberingKind.applyChecked_eq]
  rfl

theorem NumberingPattern.segmentsChecked_eq (p : NumberingPattern)
    (ns : List Nat) : p.segmentsChecked ns = some (p.segments ns) := by
  unfold NumberingPattern.segmentsChecked NumberingPattern.segments
  rw [list_mapM_option (p.headSegChecked) (p.headSeg) _
    (fun x _ => p.headSegChecked_eq x)]
  cases hl : p.pieces.getLast? with
  | none => simp [hl]
  | some pc =>
    obtain ⟨pre, kind, case⟩ := pc
    simp only [hl]
    rw [list_mapM_option (p.tailSegChecked pre kind case)
      (p.tailSeg pre kind case) _
      (fun n _ => p.tailSegChecked_eq pre kind case n)]
    rfl

/-- C9: pattern application is total.  Every potentially panicking
operation of `NumberingPattern::apply` and `NumberingKind::apply` (the
`u8::try_from` unwrap, the `String::from_utf8` unwrap, the symbol-table
index) is modelled as an explicit `Option` guard in the checked variants,
and for every pattern and every list of numbers — including the empty list
and zeros — the checked computation succeeds and produces exactly the
total function's result. -/
theorem c9_apply_total :
    (∀ (k : NumberingKind) (n : Nat) (case : Case),
      k.applyChecked n case = some (k.apply n case)) ∧
    (∀ (p : NumberingPattern) (ns : List Nat),
      p.applyChecked ns = some (p.apply ns)) := by
  refine ⟨NumberingKind.applyChecked_eq, fun p ns => ?_⟩
  unfold NumberingPattern.applyChecked NumberingPattern.apply
  rw [NumberingPattern.segmentsChecked_eq]
  rfl

/-- A character that the parse walk of `from_str` does not recognize as a
counter character. -/
def cleanChar (c : Char) : Bool :=
  (NumberingKind.fromChar c.toLower).isNone

/-- A (kind, case) combination whose rendered counter character parses
back with the same case: the rendered character reads as uppercase exactly
when the case is upper.  This fails only for (arabic, upper) and
(symbol, upper), which `from_str` never produces since `'1'` and `'*'`
are not uppercase characters. -/
def goodCase (k : NumberingKind) (case : Case) : Bool :=
  (renderChar k case).isUpper == (case == Case.upper)

/-- A piece whose prefix contains no counter characters and whose case
round-trips through rendering. -/
def goodPiece (pc : List Char × NumberingKind × Case) : Bool :=
  pc.1.all cleanChar && goodCase pc.2.1 pc.2.2

theorem parseLoop_cons_counter {c : Char} {k : NumberingKind}
    (h : NumberingKind.fromChar c.toLower = some k) (rest acc : List Char)
    (ps : List (List Char × NumberingKind × Case)) :
    parseLoop (c :: rest) acc ps =
      parseLoop rest []
        (ps ++ [(acc, k, if c.isUpper then Case.upper else Case.lower)]) := by
  simp [parseLoop, h]

theorem parseLoop_cons_clean {c : Char}
    (h : NumberingKind.fromChar c.toLower = none) (rest acc : List Char)
    (ps : List (List Char × NumberingKind × Case)) :
    parseLoop (c :: rest) acc ps = parseLoop rest (acc ++ [c]) ps := by
  simp [parseLoop, h]

theorem parseLoop_clean_run (cs : List Char) :
    ∀ rest acc ps, (∀ c ∈ cs, cleanChar c = true) →
      parseLoop (cs ++ rest) acc ps = parseLoop rest (acc ++ cs) ps := by
  induction cs with
  | nil => intro rest acc ps _; simp
  | cons c cs ih =>
    intro rest acc ps h
    have hc : NumberingKind.fromChar c.toLower = none := by
      have := h c (by simp)
      simpa [cleanChar, Option.isNone_iff_eq_none] using this
    rw [List.cons_append, parseLoop_cons_clean hc,
      ih rest (acc ++ [c]) ps (fun x hx => h x (by simp [hx]))]
    simp

theorem fromChar_renderChar (k : NumberingKind) (case : Case) :
    NumberingKind.fromChar ((renderChar k case).toLower) = some k := by
  cases k <;> cases case <;> decide

theorem case_of_renderChar {k : NumberingKind} {case : Case}
    (h : goodCase k case = true) :
    (if (renderChar k case).isUpper then Case.upper else Case.lower) = case := by
  revert h
  cases k <;> cases case <;> decide

theorem parseLoop_renderPieces
    (pieces : List (List Char × NumberingKind × Case)) :
    ∀ rest ps, (∀ pc ∈ pieces, goodPiece pc = true) →
      parseLoop (renderPieces pieces ++ rest) [] ps =
        parseLoop rest [] (ps ++ pieces) := by
  induction pieces with
  | nil => intro rest ps _; simp [renderPieces]
  | cons pc pieces ih =>
    intro rest ps h
    obtain ⟨pre, k, case⟩ := pc
    have hg : goodPiece (pre, k, case) = true := h _ (by simp)
    have hclean : ∀ c ∈ pre, cleanChar c = true := by
      have := (Bool.and_eq_true _ _).mp hg |>.1
      intro c hc
      exact (List.all_eq_true.mp this) c hc
    have hcase : goodCase k case = true :=
      ((Bool.and_eq_true _ _).mp hg).2
    have hinput : renderPieces ((pre, k, case) :: pieces) ++ rest =
        pre ++ (renderChar k case :: (renderPieces pieces ++ rest)) := by
      simp [renderPieces]
    rw [hinput, parseLoop_clean_run pre _ [] ps hclean,
      parseLoop_cons_counter (fromChar_renderChar k case),
      case_of_renderChar hcase]
    simp only [List.nil_append]
    rw [ih rest (ps ++ [(pre, k, case)]) (fun x hx => h x (by simp [hx]))]
    simp

theorem char_toNat_ofNat {n : Nat} (h : n < 55296) :
    (Char.ofNat n).toNat = n := by
  rw [Char.ofNat, dif_pos (Or.inl h)]
  rfl

theorem toNat_bounds_of_isUpper {c : Char} (h : c.isUpper = true) :
    65 ≤ c.toNat ∧ c.toNat ≤ 90 := by
  simp only [Char.isUpper, Bool.and_eq_true, decide_eq_true_eq] at h
  obtain ⟨h1, h2⟩ := h
  exact ⟨UInt32.le_toNat_of_le (by norm_num) h1,
    UInt32.toNat_le_of_le (by norm_num) h2⟩

theorem toLower_of_isUpper {c : Char} (h : c.isUpper = true) :
    (Char.toLower c).toNat = c.toNat + 32 := by
  obtain ⟨h1, h2⟩ := toNat_bounds_of_isUpper h
  rw [Char.toLower, if_pos ⟨h1, h2⟩]
  exact char_toNat_ofNat (by omega)

theorem fromChar_inv {x : Char} {k : NumberingKind}
    (h : NumberingKind.fromChar x = some k) :
    (x = '1' ∧ k = .arabic) ∨ (x = 'a' ∧ k = .letter) ∨
    (x = 'i' ∧ k = .roman) ∨ (x = '*' ∧ k = .symbol) := by
  unfold NumberingKind.fromChar at h
  split_ifs at h <;> simp_all

theorem goodCase_of_upper {c : Char} {k : NumberingKind}
    (hu : c.isUpper = true) (hf : NumberingKind.fromChar c.toLower = some k) :
    goodCase k Case.upper = true := by
  have hlow := toLower_of_isUpper hu
  have hb := toNat_bounds_of_isUpper hu
  rcases fromChar_inv hf with ⟨hx, _⟩ | ⟨_, hk⟩ | ⟨_, hk⟩ | ⟨hx, _⟩
  · rw [hx] at hlow
    have : ('1' : Char).toNat = 49 := rfl
    omega
  · subst hk; decide
  · subst hk; decide
  · rw [hx] at hlow
    have : ('*' : Char).toNat = 42 := rfl
    omega

theorem goodCase_lower (k : NumberingKind) :
    goodCase k Case.lower = true := by
  cases k <;> decide

theorem parseLoop_good (s : List Char) :
    ∀ acc ps, (∀ pc ∈ ps, goodPiece pc = true) →
      (∀ c ∈ acc, cleanChar c = true) →
      ∀ pc ∈ (parseLoop s acc ps).1, goodPiece pc = true := by
  induction s with
  | nil => intro acc ps hps _ pc hpc; exact hps pc hpc
  | cons c s ih =>
    intro acc ps hps hacc
    cases hfc : NumberingKind.fromChar c.toLower with
    | none =>
      rw [parseLoop_cons_clean hfc]
      refine ih (acc ++ [c]) ps hps ?_
      intro x hx
      rcases List.mem_append.mp hx with h | h
      · exact hacc x h
      · simp only [List.mem_singleton] at h
        subst h
        simp [cleanChar, hfc]
    | some k =>
      rw [parseLoop_cons_counter hfc]
      refine ih [] _ ?_ (by simp)
      intro pc hpc
      rcases List.mem_append.mp hpc with h | h
      · exact hps pc h
      · simp only [List.mem_singleton] at h
        subst h
        simp only [goodPiece, Bool.and_eq_true]
        refine ⟨List.all_eq_true.mpr hacc, ?_⟩
        by_cases hu : c.isUpper
        · rw [if_pos hu]
          exact goodCase_of_upper hu hfc
        · rw [if_neg hu]
          exact goodCase_lower k

theorem parseLoop_clean_all (cs : List Char) (acc : List Char)
    (ps : List (List Char × NumberingKind × Case))
    (h : ∀ c ∈ cs, cleanChar c = true) :
    parseLoop cs acc ps = (ps, acc ++ cs) := by
  have h2 := parseLoop_clean_run cs [] acc ps h
  simpa [parseLoop] using h2

theorem fromStr_ok {s : List Char} {p : NumberingPattern}
    (h : NumberingPattern.fromStr s = .ok p) :
    parseLoop s [] [] = (p.pieces, p.suffix) ∧ p.pieces ≠ [] ∧
      p.trimmed = false := by
  unfold NumberingPattern.fromStr at h
  by_cases h1 : (parseLoop s [] []).1 = []
  · rw [if_pos h1] at h
    exact absurd h (by simp)
  · rw [if_neg h1] at h
    have h2 : (⟨(parseLoop s [] []).1, (parseLoop s [] []).2, false⟩ :
        NumberingPattern) = p := by
      injection h
    subst h2
    exact ⟨rfl, h1, rfl⟩

/-- C8: for every parseable pattern (one in the image of `from_str`)
whose suffix contains no counter characters, parsing the rendered string
form yields the pattern back.  (Parsed patterns in fact always have
counter-free suffixes, since the suffix is by construction the text after
the last counter, so the extra hypothesis is automatically true.) -/
theorem c8_parse_render_roundtrip (p : NumberingPattern)
    (hp : ∃ s, NumberingPattern.fromStr s = .ok p)
    (hsuf : p.suffix.all cleanChar = true) :
    NumberingPattern.fromStr p.render = .ok p := by
  obtain ⟨s, hs⟩ := hp
  obtain ⟨hparse, hne, htr⟩ := fromStr_ok hs
  have hpieces : ∀ pc ∈ p.pieces, goodPiece pc = true := by
    have := parseLoop_good s [] [] (by simp) (by simp)
    rw [hparse] at this
    exact this
  have hsufclean : ∀ c ∈ p.suffix, cleanChar c = true :=
    List.all_eq_true.mp hsuf
  have hrun : parseLoop p.render [] [] = (p.pieces, p.suffix) := by
    unfold NumberingPattern.render
    rw [parseLoop_renderPieces p.pieces p.suffix [] hpieces]
    simp only [List.nil_append]
    rw [parseLoop_clean_all p.suffix [] p.pieces hsufclean]
    simp
  unfold NumberingPattern.fromStr
  rw [hrun, if_neg hne, ← htr]

/-- The pattern parsed from "(i)". -/
def patParen : NumberingPattern :=
  ⟨[(['('], .roman, .lower)], [')'], false⟩

/-- Witness for C8 at a concrete parseable pattern. -/
theorem c8_parse_render_roundtrip_witness :
    NumberingPattern.fromStr patParen.render = .ok patParen :=
  c8_parse_render_roundtrip patParen ⟨['(', 'i', ')'], rfl⟩ (by decide)

/-!
## Layout: content model

The content realization core of `src/library/src/layout/mod.rs` operates
on `Content`, `Styles` and `StyleChain` values whose implementations live
outside `src/` (in the `typst` core crate).  They are modelled from the
spec (§3): content is a tagged tree with styled wrappers, sequences, and
element nodes carrying a source span; a style chain is a persistent stack
of style maps (extension is cons, the default chain is empty); a style
map's only observable behaviour in this module is its interruption query
per marker element kind, modelled as one `Option (Option span)` field per
marker kind queried by `interrupt_style`.  Element properties read through
the chain (`pagebreak.weak(styles)`, `equation.block(styles)`,
`list.tight(styles)`) are modelled as fields of the element.
-/

/-- Modelled from the spec: a local style map, observable only through
its interruption queries for the marker kinds {document, page, par,
align, list, enum, terms}; `none` = no interruption, `some none` =
interruption without a span, `some (some sp)` = interruption with span
`sp` (`Styles::interruption` returns `Option<Option<Span>>`). -/
structure Styles where
  idoc : Option (Option Nat) := none
  ipage : Option (Option Nat) := none
  ipar : Option (Option Nat) := none
  ialign : Option (Option Nat) := none
  ilist : Option (Option Nat) := none
  ienum : Option (Option Nat) := none
  iterms : Option (Option Nat) := none
deriving DecidableEq, Repr

/-- Modelled from the spec: a style chain is a stack of style maps,
nearest first; extension is cons and the default chain is `[]`. -/
abbrev Chain := List Styles

/-- The kinds of vertical spacing the flow builder synthesizes, plus
plain user `v` spacing. -/
inductive VKind where
  | plain
  | above
  | below
  | attach
deriving DecidableEq, Repr

mutual
/-- The element kinds the realization core inspects, with the properties
it reads.  Style-resolved properties (`weak`, `block`, `tight`) are
modelled as fields. -/
inductive Element where
  | pagebreak (weak : Bool)
  | page (body : Content)
  | parbreak
  | space
  | text (s : List Char)
  | linebreak
  | smartquote
  | hElem
  | vElem (kind : VKind)
  | colbreak
  | meta
  | box
  | blockE (body : Content)
  | equation (block : Bool) (body : Content)
  | mathAtom
  | par (children : List Content)
  | listItem (body : Content)
  | enumItem (body : Content)
  | termItem (term : Content) (description : Content)
  | list (children : List Content) (tight : Bool)
  | enumE (children : List Content) (tight : Bool)
  | terms (children : List Content) (tight : Bool)
  | document (pages : List Content)
  | flowE (children : List Content)
  | rect
  | square
  | ellipse
  | circle
  | image
deriving Repr

/-- Content: a styled wrapper, a sequence, or an element with its source
span. -/
inductive Content where
  | styled (inner : Content) (map : Styles)
  | seq (children : List Content)
  | elem (e : Element) (span : Nat)
deriving Repr
end

namespace Content

/-- `Content::span` (only elements reach the places where it is read). -/
def span : Content → Nat
  | .elem _ sp => sp
  | _ => 0

end Content

/-- `Element::name`, the display name used in "<kind> is not allowed
here". -/
def Element.name : Element → String
  | .pagebreak _ => "pagebreak"
  | .page _ => "page"
  | .parbreak => "parbreak"
  | .space => "space"
  | .text _ => "text"
  | .linebreak => "linebreak"
  | .smartquote => "smartquote"
  | .hElem => "h"
  | .vElem _ => "v"
  | .colbreak => "colbreak"
  | .meta => "meta"
  | .box => "box"
  | .blockE _ => "block"
  | .equation _ _ => "equation"
  | .mathAtom => "math"
  | .par _ => "par"
  | .listItem _ => "list.item"
  | .enumItem _ => "enum.item"
  | .termItem _ _ => "terms.item"
  | .list _ _ => "list"
  | .enumE _ _ => "enum"
  | .terms _ _ => "terms"
  | .document _ => "document"
  | .flowE _ => "flow"
  | .rect => "rect"
  | .square => "square"
  | .ellipse => "ellipse"
  | .circle => "circle"
  | .image => "image"

/-- `Content::func` identity, compared by name (distinct per element
kind). -/
def funcName : Content → String
  | .styled _ _ => "styled"
  | .seq _ => "sequence"
  | .elem e _ => e.name

def isPagebreak : Content → Bool
  | .elem (.pagebreak _) _ => true
  | _ => false

def isPage : Content → Bool
  | .elem (.page _) _ => true
  | _ => false

def isParbreak : Content → Bool
  | .elem .parbreak _ => true
  | _ => false

def isSpace : Content → Bool
  | .elem .space _ => true
  | _ => false

def isText : Content → Bool
  | .elem (.text _) _ => true
  | _ => false

def isLinebreak : Content → Bool
  | .elem .linebreak _ => true
  | _ => false

def isSmartquote : Content → Bool
  | .elem .smartquote _ => true
  | _ => false

def isH : Content → Bool
  | .elem .hElem _ => true
  | _ => false

def isV : Content → Bool
  | .elem (.vElem _) _ => true
  | _ => false

def isColbreak : Content → Bool
  | .elem .colbreak _ => true
  | _ => false

def isMeta : Content → Bool
  | .elem .meta _ => true
  | _ => false

def isBox : Content → Bool
  | .elem .box _ => true
  | _ => false

def isEquation : Content → Bool
  | .elem (.equation _ _) _ => true
  | _ => false

/-- `equation.block(styles)` is false: an inline equation (the `block`
property is modelled as a field). -/
def isInlineEquation : Content → Bool
  | .elem (.equation block _) _ => !block
  | _ => false

def isParElem : Content → Bool
  | .elem (.par _) _ => true
  | _ => false

def isListItem : Content → Bool
  | .elem (.listItem _) _ => true
  | _ => false

def isEnumItem : Content → Bool
  | .elem (.enumItem _) _ => true
  | _ => false

def isTermItem : Content → Bool
  | .elem (.termItem _ _) _ => true
  | _ => false

def isItem (c : Content) : Bool :=
  isListItem c || isEnumItem c || isTermItem c

def isRect : Content → Bool
  | .elem .rect _ => true
  | _ => false

def isSquare : Content → Bool
  | .elem .square _ => true
  | _ => false

def isEllipse : Content → Bool
  | .elem .ellipse _ => true
  | _ => false

def isCircle : Content → Bool
  | .elem .circle _ => true
  | _ => false

def isImage : Content → Bool
  | .elem .image _ => true
  | _ => false

/-- Modelled from the spec: the math-layoutable capability
(`can::<dyn LayoutMath>`), held by equations and math atoms. -/
def canLayoutMath : Content → Bool
  | .elem (.equation _ _) _ => true
  | .elem .mathAtom _ => true
  | _ => false

/-- Modelled from the spec: the block-layoutable capability
(`can::<dyn Layout>`), held per element kind by the layoutable elements
(lists, enums, terms, boxes, blocks, equations, shapes, images, flows). -/
def canLayout : Content → Bool
  | .elem (.list _ _) _ => true
  | .elem (.enumE _ _) _ => true
  | .elem (.terms _ _) _ => true
  | .elem .box _ => true
  | .elem (.blockE _) _ => true
  | .elem (.equation _ _) _ => true
  | .elem .rect _ => true
  | .elem .square _ => true
  | .elem .ellipse _ => true
  | .elem .circle _ => true
  | .elem .image _ => true
  | .elem (.flowE _) _ => true
  | _ => false

/-- Modelled from the spec: the root-layoutable capability
(`can::<dyn LayoutRoot>`), held by document elements. -/
def canLayoutRoot : Content → Bool
  | .elem (.document _) _ => true
  | _ => false

/-- `elem.tight(styles)` for list / enum / terms containers (`tight`
modelled as a field); false for every other element, as in
`FlowBuilder::accept`. -/
def tightOf : Content → Bool
  | .elem (.list _ tight) _ => tight
  | .elem (.enumE _ tight) _ => tight
  | .elem (.terms _ tight) _ => tight
  | _ => false

/-- `EquationElem::new(content).pack()`: wrap math-layoutable content in
an equation element (a synthesized element has a detached span, modelled
as 0; its `block` property defaults to false). -/
def wrapEquation (c : Content) : Content :=
  .elem (.equation false c) 0

/-!
## Layout: style-vec finishing (modelled from the spec, §4.A)

`StyleVecBuilder` / `BehavedBuilder` live outside `src/`.  Modelled from
the spec: the builder records (content, chain) pairs; `finish` computes
the longest common prefix of all recorded chains as the shared style and
each stored entry retains the residual local overrides.  With chains as
cons-extended lists the common prefix of the chains-as-stacks is the
longest common tail of the lists.
-/

/-- The longest common tail of two chains. -/
def commonTail (a b : Chain) : Chain :=
  ((((a.reverse).zip (b.reverse)).takeWhile
    (fun p => p.1 == p.2)).map (fun p => p.1)).reverse

/-- Modelled from the spec: the shared chain of a recorded sequence (the
default chain when empty). -/
def sharedChainOf (entries : List (Content × Chain)) : Chain :=
  match entries with
  | [] => []
  | e :: rest => rest.foldl (fun acc x => commonTail acc x.2) e.2

/-- The residual local overrides of one entry relative to the shared
chain. -/
def residualOf (ch shared : Chain) : List Styles :=
  ch.take (ch.length - shared.length)

/-- `styled_with_map` with a list of residual maps (the empty residual
leaves the content unchanged). -/
def styledWithMap (c : Content) (ms : List Styles) : Content :=
  ms.foldr (fun m acc => Content.styled acc m) c

/-- Modelled from the spec: `finish` + `to_vec` of a style-vec builder:
each entry becomes its content wrapped in its residual local styles, and
the shared chain is returned alongside. -/
def styleVecFinish (entries : List (Content × Chain)) : List Content × Chain :=
  let shared := sharedChainOf entries
  (entries.map (fun e => styledWithMap e.1 (residualOf e.2 shared)), shared)

/-!
## Layout: scope builders (from `src/library/src/layout/mod.rs`)
-/

/-- `DocBuilder`: accepts pagebreaks and pages. -/
structure DocBuilder where
  pages : List (Content × Chain)
  keep_next : Bool
deriving Repr

/-- `Default for DocBuilder`: no pages, `keep_next = true`. -/
def DocBuilder.init : DocBuilder := ⟨[], true⟩

/-- `DocBuilder::accept`: a pagebreak sets `keep_next = !weak` and is
consumed without being stored; a page is pushed and sets
`keep_next = false`; everything else is rejected. -/
def DocBuilder.accept (db : DocBuilder) (c : Content) (styles : Chain) :
    Bool × DocBuilder :=
  match c with
  | .elem (.pagebreak weak) _ => (true, { db with keep_next := !weak })
  | .elem (.page _) _ =>
    (true, { pages := db.pages ++ [(c, styles)], keep_next := false })
  | _ => (false, db)

/-- `FlowBuilder`: flow content and the `last_was_parbreak` flag. -/
structure FlowBuilder where
  items : List (Content × Chain)
  last_was_parbreak : Bool
deriving Repr

def FlowBuilder.init : FlowBuilder := ⟨[], false⟩

/-- The `VElem::list_attach(par.leading)` spacing synthesized before a
tight list (its style-derived amount is not observable here). -/
def vAttach : Content := .elem (.vElem .attach) 0

/-- The `block.above` spacing pushed before a block. -/
def vAbove : Content := .elem (.vElem .above) 0

/-- The `block.below` spacing pushed after a block. -/
def vBelow : Content := .elem (.vElem .below) 0

/-- `FlowBuilder::accept`.  Note that the source clears
`last_was_parbreak` before the remaining checks, so the flag is cleared
even when the content is ultimately rejected. -/
def FlowBuilder.accept (fb : FlowBuilder) (c : Content) (styles : Chain) :
    Bool × FlowBuilder :=
  if isParbreak c then (true, { fb with last_was_parbreak := true })
  else
    let last := fb.last_was_parbreak
    let fb := { fb with last_was_parbreak := false }
    if isV c || isColbreak c || isMeta c then
      (true, { fb with items := fb.items ++ [(c, styles)] })
    else if canLayout c || isParElem c then
      let tight := tightOf c
      let pre := if !last && tight then [(vAttach, styles)] else []
      (true, { fb with
        items := fb.items ++ pre ++ [(vAbove, styles), (c, styles), (vBelow, styles)] })
    else (false, fb)

/-- `ParBuilder`: inline content. -/
structure ParBuilder where
  items : List (Content × Chain)
deriving Repr

def ParBuilder.init : ParBuilder := ⟨[]⟩

/-- `BehavedBuilder::is_basically_empty`: contains only metadata. -/
def ParBuilder.is_basically_empty (pb : ParBuilder) : Bool :=
  pb.items.all (fun e => isMeta e.1)

/-- `ParBuilder::accept`: metadata only once the paragraph is not
basically empty; otherwise spaces, text, `h`, linebreaks, smart quotes,
inline equations and boxes. -/
def ParBuilder.accept (pb : ParBuilder) (c : Content) (styles : Chain) :
    Bool × ParBuilder :=
  if isMeta c then
    if !pb.is_basically_empty then (true, ⟨pb.items ++ [(c, styles)]⟩)
    else (false, pb)
  else if isSpace c || isText c || isH c || isLinebreak c
      || isSmartquote c || isInlineEquation c || isBox c then
    (true, ⟨pb.items ++ [(c, styles)]⟩)
  else (false, pb)

/-- `ParBuilder::finish`: pack the children into a `ParElem`. -/
def ParBuilder.finish (pb : ParBuilder) : Content × Chain :=
  let r := styleVecFinish pb.items
  (.elem (.par r.1) 0, r.2)

/-- `ListBuilder`: collected items, the `tight` flag, and the staged
trailing whitespace / parbreaks. -/
structure ListBuilder where
  items : List (Content × Chain)
  tight : Bool
  staged : List (Content × Chain)
deriving Repr

/-- `Default for ListBuilder`: empty, `tight = true`, nothing staged. -/
def ListBuilder.init : ListBuilder := ⟨[], true, []⟩

/-- `ListBuilder::accept`: a space or parbreak is staged once at least
one item is collected; an item of the same func as the first item is
pushed, draining `staged` into the `tight` flag (`tight` stays true only
if no staged entry was a parbreak); everything else is rejected without
mutation. -/
def ListBuilder.accept (lb : ListBuilder) (c : Content) (styles : Chain) :
    Bool × ListBuilder :=
  if !lb.items.isEmpty && (isSpace c || isParbreak c) then
    (true, { lb with staged := lb.staged ++ [(c, styles)] })
  else if (isListItem c || isEnumItem c || isTermItem c)
      && (match lb.items.head? with
          | none => true
          | some first => funcName first.1 == funcName c) then
    (true, { items := lb.items ++ [(c, styles)],
             tight := lb.tight && lb.staged.all (fun t => !isParbreak t.1),
             staged := [] })
  else (false, lb)

/-- `ListBuilder::finish`: rebuild the container element determined by
the first item's kind, wrapping each item's body (and, for terms, also
the description) in the item's residual local styles, and writing the
`tight` flag onto the container.  The per-item `unwrap`s of the source
are the `none` cases (unreachable in well-formed states). -/
def ListBuilder.finish (lb : ListBuilder) : Option (Content × Chain) :=
  let shared := sharedChainOf lb.items
  match lb.items.head? with
  | none => none
  | some first =>
    if isListItem first.1 then do
      let mapped ← lb.items.mapM (fun e =>
        match e.1 with
        | .elem (.listItem body) sp =>
          some (Content.elem
            (.listItem (styledWithMap body (residualOf e.2 shared))) sp)
        | _ => none)
      some (.elem (.list mapped lb.tight) 0, shared)
    else if isEnumItem first.1 then do
      let mapped ← lb.items.mapM (fun e =>
        match e.1 with
        | .elem (.enumItem body) sp =>
          some (Content.elem
            (.enumItem (styledWithMap body (residualOf e.2 shared))) sp)
        | _ => none)
      some (.elem (.enumE mapped lb.tight) 0, shared)
    else if isTermItem first.1 then do
      let mapped ← lb.items.mapM (fun e =>
        match e.1 with
        | .elem (.termItem t d) sp =>
          some (Content.elem
            (.termItem (styledWithMap t (residualOf e.2 shared))
              (styledWithMap d (residualOf e.2 shared))) sp)
        | _ => none)
      some (.elem (.terms mapped lb.tight) 0, shared)
    else none

/-!
## Layout: the builder driver
-/

/-- Errors: a source diagnostic (span + message), fuel exhaustion of the
model, or a panic of the source (`unwrap` / `unreachable`). -/
inductive Err where
  | diag (span : Nat) (msg : String)
  | fuelOut
  | crash
deriving DecidableEq, Repr

/-- The builder state: the four scope builders, the document one present
only for top-level realization. -/
structure BState where
  doc : Option DocBuilder
  flow : FlowBuilder
  par : ParBuilder
  list : ListBuilder
deriving Repr

/-- `Builder::new`. -/
def Builder.new (top : Bool) : BState :=
  { doc := if top then some DocBuilder.init else none,
    flow := FlowBuilder.init, par := ParBuilder.init, list := ListBuilder.init }

/-- The external realizer collaborator `realize(vt, content, chain)`. -/
abbrev Realizer := Content → Chain → Option Content

/-- Modelled from the spec: the realizer at its fixed point — no show
rule or default transform applies, so realization returns `None` for
every content. -/
def trivialRealize : Realizer := fun _ _ => none

/-- The type of the accept callback the interrupt combinators re-enter. -/
abbrev AcceptFn := BState → Content → Chain → Except Err BState

/-- Accept each entry in order (the `for` loops over sequence children
and staged entries). -/
def acceptAllF (g : AcceptFn) : BState → List (Content × Chain) →
    Except Err BState
  | st, [] => .ok st
  | st, e :: rest => do
    let st2 ← g st e.1 e.2
    acceptAllF g st2 rest

/-- `Builder::interrupt_list`: if items are collected, detach `staged`,
finish the list into a synthesized container, re-accept the container,
then re-accept each staged entry in order.  `mem::take(&mut self.list)`
resets the list builder to its default before the re-accepts. -/
def interruptListF (g : AcceptFn) (st : BState) : Except Err BState :=
  if st.list.items.isEmpty then .ok st
  else
    let staged := st.list.staged
    let lb := { st.list with staged := [] }
    match lb.finish with
    | none => .error .crash
    | some r => do
      let st2 := { st with list := ListBuilder.init }
      let st3 ← g st2 r.1 r.2
      acceptAllF g st3 staged

/-- `Builder::interrupt_par`: first interrupt the list; then if the
paragraph has content, finish it and re-accept the paragraph element. -/
def interruptParF (g : AcceptFn) (st : BState) : Except Err BState := do
  let st2 ← interruptListF g st
  if st2.par.items.isEmpty then .ok st2
  else
    let r := st2.par.finish
    let st3 := { st2 with par := ParBuilder.init }
    g st3 r.1 r.2

/-- `Builder::interrupt_page`: first interrupt the paragraph; without a
DocBuilder return; otherwise, if the flow is non-empty or (`keep_next`
and an outer chain was provided), finish the flow, choose the page's
chain (the flow's shared chain if non-default, else the outer chain or
default), synthesize a page element wrapping the flow and re-accept it. -/
def interruptPageF (g : AcceptFn) (st : BState) (outer : Option Chain) :
    Except Err BState := do
  let st2 ← interruptParF g st
  match st2.doc with
  | none => .ok st2
  | some doc =>
    if !st2.flow.items.isEmpty || (doc.keep_next && outer.isSome) then
      let r := styleVecFinish st2.flow.items
      let styles := if r.2 = ([] : Chain) then outer.getD [] else r.2
      let page : Content := .elem (.page (.elem (.flowE r.1) 0)) 0
      let st3 := { st2 with flow := FlowBuilder.init }
      g st3 page styles
    else .ok st2

/-- The tail of `Builder::interrupt_style` after the document-marker
query failed to match `Some(Some(span))`: the page, par/align and
list/enum/terms queries, in the source's order. -/
def interruptStyleRest (g : AcceptFn) (st : BState) (map : Styles)
    (outer : Option Chain) : Except Err BState :=
  match map.ipage with
  | some (some sp) =>
    if st.doc.isNone then
      .error (.diag sp "page configuration is not allowed inside of containers")
    else interruptPageF g st outer
  | _ =>
    if map.ipar.isSome || map.ialign.isSome then interruptParF g st
    else if map.ilist.isSome || map.ienum.isSome || map.iterms.isSome then
      interruptListF g st
    else .ok st

/-- `Builder::interrupt_style`: interruption queries of the local map for
the marker kinds, in the source's order, with the document and page
validity checks. -/
def interruptStyleF (g : AcceptFn) (st : BState) (map : Styles)
    (outer : Option Chain) : Except Err BState :=
  match map.idoc with
  | some (some sp) =>
    if st.doc.isNone then
      .error (.diag sp "document set rules are not allowed inside of containers")
    else if outer.isNone && (!st.flow.items.isEmpty || !st.par.items.isEmpty
        || !st.list.items.isEmpty) then
      .error (.diag sp "document set rules must appear before any content")
    else .ok st
  | _ => interruptStyleRest g st map outer

/-- The error tail of `Builder::accept`: a pagebreak that fell through
means it appeared inside a container; anything else is not allowed
here.  Both diagnostics carry the element's span. -/
def errFor (c : Content) : Except Err BState :=
  if isPagebreak c then
    .error (.diag c.span "pagebreaks are not allowed inside of containers")
  else
    .error (.diag c.span (funcName c ++ " is not allowed here"))

/-- The element path of `Builder::accept` (after realization returned
nothing): try the list; else interrupt the list and retry; else try the
paragraph; else interrupt the paragraph and try the flow; else compute
the pagebreak keep flag, interrupt the page, and try the DocBuilder;
else fail.  Note that the flow builder's parbreak flag is cleared even
when the flow rejects the content. -/
def acceptElem (g : AcceptFn) (st : BState) (c : Content) (chain : Chain) :
    Except Err BState :=
  let la := st.list.accept c chain
  if la.1 then .ok { st with list := la.2 }
  else do
    let st2 ← interruptListF g st
    let la2 := st2.list.accept c chain
    if la2.1 then .ok { st2 with list := la2.2 }
    else
      let pa := st2.par.accept c chain
      if pa.1 then .ok { st2 with par := pa.2 }
      else do
        let st3 ← interruptParF g st2
        let fa := st3.flow.accept c chain
        if fa.1 then .ok { st3 with flow := fa.2 }
        else
          let st4 := { st3 with flow := fa.2 }
          let keep := match c with
            | .elem (.pagebreak weak) _ => !weak
            | _ => false
          let st5 ← interruptPageF g st4 (if keep then some chain else none)
          match st5.doc with
          | some db =>
            let da := db.accept c chain
            if da.1 then .ok { st5 with doc := some da.2 }
            else errFor c
          | none => errFor c

/-- `Builder::accept`, with explicit fuel for the re-entrant recursion:
wrap math-layoutable non-equation content in an equation; recurse into
styled wrappers (with the style interruption brackets) and sequences;
ask the realizer and recurse on its output; otherwise run the element
path.  Fuel decreases exactly at nested `accept` calls. -/
def acceptCore (r : Realizer) : Nat → BState → Content → Chain →
    Except Err BState
  | 0, _, _, _ => .error .fuelOut
  | f + 1, st, c0, chain =>
    let c := if canLayoutMath c0 && !isEquation c0 then wrapEquation c0 else c0
    match c with
    | .styled inner map => do
      let chain2 := map :: chain
      let st2 ← interruptStyleF (acceptCore r f) st map none
      let st3 ← acceptCore r f st2 inner chain2
      interruptStyleF (acceptCore r f) st3 map (some chain2)
    | .seq children =>
      acceptAllF (acceptCore r f) st (children.map (fun ch => (ch, chain)))
    | .elem e sp =>
      match r (.elem e sp) chain with
      | some realized => acceptCore r f st realized chain
      | none => acceptElem (acceptCore r f) st (.elem e sp) chain

/-- `Builder::accept` at a given fuel. -/
def accept (r : Realizer) (f : Nat) (st : BState) (c : Content)
    (chain : Chain) : Except Err BState :=
  acceptCore r f st c chain

/-- `Builder::interrupt_list` at a given fuel for the re-accepts. -/
def interrupt_list (r : Realizer) (f : Nat) (st : BState) :
    Except Err BState :=
  interruptListF (acceptCore r f) st

/-- The external `applicable(content, chain)` collaborator. -/
abbrev Applicable := Content → Chain → Bool

/-- `realize_root`: pass root-layoutable non-applicable content through;
otherwise build with a DocBuilder, accept, interrupt the page with the
outer chain, and pack the pages into a document element. -/
def realize_root (a : Applicable) (r : Realizer) (f : Nat) (c : Content)
    (chain : Chain) : Except Err (Content × Chain) :=
  if canLayoutRoot c && !a c chain then .ok (c, chain)
  else do
    let st := Builder.new true
    let st2 ← acceptCore r f st c chain
    let st3 ← interruptPageF (acceptCore r f) st2 (some chain)
    match st3.doc with
    | some db =>
      let rr := styleVecFinish db.pages
      .ok (.elem (.document rr.1) 0, rr.2)
    | none => .error .crash

/-- `realize_block`: pass block-layoutable content through unchanged when
it is not one of the shape primitives (rect, square, ellipse, circle,
image) and not applicable; otherwise build without a DocBuilder, accept,
interrupt the paragraph, and pack the flow. -/
def realize_block (a : Applicable) (r : Realizer) (f : Nat) (c : Content)
    (chain : Chain) : Except Err (Content × Chain) :=
  if canLayout c && !isRect c && !isSquare c && !isEllipse c && !isCircle c
      && !isImage c && !a c chain then
    .ok (c, chain)
  else do
    let st := Builder.new false
    let st2 ← acceptCore r f st c chain
    let st3 ← interruptParF (acceptCore r f) st2
    let rr := styleVecFinish st3.flow.items
    .ok (.elem (.flowE rr.1) 0, rr.2)

/-!
## Layout: invariants of the list builder (C5, C10)
-/

@[simp] theorem okBind {α β : Type} (a : α) (k : α → Except Err β) :
    (Except.ok a >>= k) = k a := rfl

@[simp] theorem errBind {α β : Type} (e : Err) (k : α → Except Err β) :
    ((Except.error e : Except Err α) >>= k) = Except.error e := rfl

/-- Content containing no list / enum / term item element at any position
the driver can route to the list builder. -/
def isItemElement : Element → Bool
  | .listItem _ => true
  | .enumItem _ => true
  | .termItem _ _ => true
  | _ => false

mutual
/-- No item element occurs at a position the driver can route to the
list builder (top level, under styled wrappers, or inside sequences). -/
def itemFree : Content → Bool
  | .styled inner _ => itemFree inner
  | .seq cs => itemFreeList cs
  | .elem e _ => !isItemElement e

/-- `itemFree` on every element of a list. -/
def itemFreeList : List Content → Bool
  | [] => true
  | c :: cs => itemFree c && itemFreeList cs
end

theorem itemFreeList_forall {cs : List Content} (h : itemFreeList cs = true) :
    ∀ c ∈ cs, itemFree c = true := by
  induction cs with
  | nil => intro c hc; simp at hc
  | cons c cs ih =>
    rw [itemFreeList, Bool.and_eq_true] at h
    intro x hx
    rcases List.mem_cons.mp hx with hx | hx
    · subst hx; exact h.1
    · exact ih h.2 x hx

/-- The list builder is completely empty. -/
def listEmpty (st : BState) : Prop :=
  st.list.items = [] ∧ st.list.staged = []

/-- Well-formedness of reachable list-builder states: staged entries are
spaces or parbreaks, staged is only non-empty when items are, and all
items are item elements of the first item's func. -/
def ListWF (lb : ListBuilder) : Prop :=
  (∀ e ∈ lb.staged, (isSpace e.1 || isParbreak e.1) = true) ∧
  (lb.staged ≠ [] → lb.items ≠ []) ∧
  (match lb.items.head? with
   | none => True
   | some first =>
     isItem first.1 = true ∧ ∀ e ∈ lb.items, funcName e.1 = funcName first.1)

theorem itemFree_elem (e : Element) (sp : Nat) :
    itemFree (.elem e sp) = !isItemElement e := by
  rw [itemFree.eq_def]

theorem itemFree_styled (inner : Content) (map : Styles) :
    itemFree (.styled inner map) = itemFree inner := by
  rw [itemFree.eq_def]

theorem itemFree_seq (cs : List Content) :
    itemFree (.seq cs) = itemFreeList cs := by
  rw [itemFree.eq_def]

theorem itemFree_not_item {c : Content} (h : itemFree c = true) :
    isItem c = false := by
  cases c with
  | styled inner map => rfl
  | seq cs => rfl
  | elem e sp =>
    rw [itemFree_elem] at h
    cases e <;> simp_all [isItemElement, isItem, isListItem, isEnumItem,
      isTermItem]

theorem ListBuilder.accept_not_item {lb : ListBuilder} {c : Content}
    (hli : lb.items = []) (hit : isItem c = false) (chain : Chain) :
    lb.accept c chain = (false, lb) := by
  have h3 : isListItem c = false ∧ isEnumItem c = false ∧
      isTermItem c = false := by
    simp only [isItem, Bool.or_eq_false_iff] at hit
    exact ⟨hit.1.1, hit.1.2, hit.2⟩
  unfold ListBuilder.accept
  rw [hli]
  simp [h3.1, h3.2.1, h3.2.2]

theorem interruptListF_empty {g : AcceptFn} {st : BState}
    (hli : st.list.items = []) : interruptListF g st = .ok st := by
  unfold interruptListF
  rw [hli]
  simp

theorem exceptBind_ok {α β : Type} {x : Except Err α} {k : α → Except Err β}
    {b : β} (h : (x >>= k) = .ok b) : ∃ a, x = .ok a ∧ k a = .ok b := by
  cases x with
  | error e => simp at h
  | ok a => exact ⟨a, rfl, by simpa using h⟩

/-- The content synthesized by `ParBuilder::finish` is item-free. -/
theorem parFinish_itemFree (pb : ParBuilder) : itemFree pb.finish.1 = true := by
  show itemFree (.elem (.par (styleVecFinish pb.items).1) 0) = true
  rw [itemFree_elem]
  rfl

theorem page_itemFree (b : Content) : itemFree (.elem (.page b) 0) = true := by
  rw [itemFree_elem]
  rfl

/-- The preservation property of an accept callback: item-free content
accepted from a state with an empty list builder leaves the list builder
empty. -/
def Pres (g : AcceptFn) : Prop :=
  ∀ st c chain st2, listEmpty st → itemFree c = true →
    g st c chain = .ok st2 → listEmpty st2

theorem pres_acceptAllF {g : AcceptFn} (hg : Pres g) :
    ∀ (entries : List (Content × Chain)) (st st2 : BState),
      (∀ e ∈ entries, itemFree e.1 = true) → listEmpty st →
      acceptAllF g st entries = .ok st2 → listEmpty st2 := by
  intro entries
  induction entries with
  | nil =>
    intro st st2 _ he h
    unfold acceptAllF at h
    cases h
    exact he
  | cons e rest ih =>
    intro st st2 hall he h
    unfold acceptAllF at h
    obtain ⟨st3, hgr, h⟩ := exceptBind_ok h
    have he3 : listEmpty st3 := hg st e.1 e.2 st3 he (hall e (by simp)) hgr
    exact ih st3 st2 (fun x hx => hall x (by simp [hx])) he3 h

theorem pres_interruptParF {g : AcceptFn} (hg : Pres g) {st st2 : BState}
    (he : listEmpty st) (h : interruptParF g st = .ok st2) :
    listEmpty st2 := by
  unfold interruptParF at h
  rw [interruptListF_empty he.1] at h
  simp only [okBind] at h
  cases hp : st.par.items.isEmpty with
  | true =>
    rw [hp] at h
    simp only [if_pos] at h
    cases h
    exact he
  | false =>
    rw [hp] at h
    simp only [Bool.false_eq_true, if_neg, reduceIte] at h
    exact hg { st with par := ParBuilder.init } _ _ st2 he
      (parFinish_itemFree st.par) h

theorem pres_interruptPageF {g : AcceptFn} (hg : Pres g) {st st2 : BState}
    {outer : Option Chain} (he : listEmpty st)
    (h : interruptPageF g st outer = .ok st2) : listEmpty st2 := by
  unfold interruptPageF at h
  obtain ⟨st3, hpar, h⟩ := exceptBind_ok h
  have he3 : listEmpty st3 := pres_interruptParF hg he hpar
  cases hdoc : st3.doc with
  | none =>
    rw [hdoc] at h
    simp only at h
    cases h
    exact he3
  | some db =>
    rw [hdoc] at h
    simp only at h
    cases hcond : (!st3.flow.items.isEmpty || (db.keep_next && outer.isSome)) with
    | true =>
      rw [hcond] at h
      simp only [if_pos] at h
      refine hg _ _ _ st2 ?_ (page_itemFree _) h
      exact he3
    | false =>
      rw [hcond] at h
      simp only [Bool.false_eq_true, reduceIte] at h
      cases h
      exact he3

theorem pres_interruptStyleRest {g : AcceptFn} (hg : Pres g) {st st2 : BState}
    {map : Styles} {outer : Option Chain} (he : listEmpty st)
    (h : interruptStyleRest g st map outer = .ok st2) : listEmpty st2 := by
  unfold interruptStyleRest at h
  cases hpg : map.ipage with
  | some o =>
    cases o with
    | some sp =>
      rw [hpg] at h
      simp only at h
      by_cases h1 : st.doc.isNone = true
      · rw [if_pos h1] at h
        simp at h
      · rw [if_neg h1] at h
        exact pres_interruptPageF hg he h
    | none =>
      rw [hpg] at h
      simp only at h
      by_cases h2 : (map.ipar.isSome || map.ialign.isSome) = true
      · rw [if_pos h2] at h
        exact pres_interruptParF hg he h
      · rw [if_neg h2] at h
        by_cases h3 : (map.ilist.isSome || map.ienum.isSome
            || map.iterms.isSome) = true
        · rw [if_pos h3] at h
          rw [interruptListF_empty he.1] at h
          cases h
          exact he
        · rw [if_neg h3] at h
          cases h
          exact he
  | none =>
    rw [hpg] at h
    simp only at h
    by_cases h2 : (map.ipar.isSome || map.ialign.isSome) = true
    · rw [if_pos h2] at h
      exact pres_interruptParF hg he h
    · rw [if_neg h2] at h
      by_cases h3 : (map.ilist.isSome || map.ienum.isSome
          || map.iterms.isSome) = true
      · rw [if_pos h3] at h
        rw [interruptListF_empty he.1] at h
        cases h
        exact he
      · rw [if_neg h3] at h
        cases h
        exact he

theorem pres_interruptStyleF {g : AcceptFn} (hg : Pres g) {st st2 : BState}
    {map : Styles} {outer : Option Chain} (he : listEmpty st)
    (h : interruptStyleF g st map outer = .ok st2) : listEmpty st2 := by
  unfold interruptStyleF at h
  cases hdoc : map.idoc with
  | some o =>
    cases o with
    | some sp =>
      rw [hdoc] at h
      simp only at h
      by_cases h1 : st.doc.isNone = true
      · rw [if_pos h1] at h
        simp at h
      · rw [if_neg h1] at h
        by_cases h2 : (outer.isNone && (!st.flow.items.isEmpty
            || !st.par.items.isEmpty || !st.list.items.isEmpty)) = true
        · rw [if_pos h2] at h
          simp at h
        · rw [if_neg h2] at h
          cases h
          exact he
    | none =>
      rw [hdoc] at h
      simp only at h
      exact pres_interruptStyleRest hg he h
  | none =>
    rw [hdoc] at h
    simp only at h
    exact pres_interruptStyleRest hg he h

theorem pres_acceptElem {g : AcceptFn} (hg : Pres g) {st : BState}
    {c : Content} {chain : Chain} {st2 : BState} (he : listEmpty st)
    (hni : isItem c = false) (h : acceptElem g st c chain = .ok st2) :
    listEmpty st2 := by
  unfold acceptElem at h
  rw [ListBuilder.accept_not_item he.1 hni chain] at h
  simp only at h
  rw [interruptListF_empty he.1] at h
  simp only [okBind] at h
  rw [ListBuilder.accept_not_item he.1 hni chain] at h
  simp only at h
  cases hpa : (st.par.accept c chain).1 with
  | true =>
    rw [hpa] at h
    simp only [if_pos] at h
    cases h
    exact he
  | false =>
    rw [hpa] at h
    simp only [Bool.false_eq_true, reduceIte] at h
    obtain ⟨st3, hpar, h⟩ := exceptBind_ok h
    have he3 : listEmpty st3 := pres_interruptParF hg he hpar
    cases hfa : (st3.flow.accept c chain).1 with
    | true =>
      rw [hfa] at h
      simp only [if_pos] at h
      cases h
      exact he3
    | false =>
      rw [hfa] at h
      simp only [Bool.false_eq_true, reduceIte] at h
      obtain ⟨st5, hpg, h⟩ := exceptBind_ok h
      have he3b : listEmpty { st3 with flow := (st3.flow.accept c chain).2 } :=
        he3
      have he5 : listEmpty st5 := pres_interruptPageF hg he3b hpg
      cases hdoc : st5.doc with
      | none =>
        rw [hdoc] at h
        simp only at h
        unfold errFor at h
        by_cases hpb : isPagebreak c = true
        · rw [if_pos hpb] at h
          simp at h
        · rw [if_neg hpb] at h
          simp at h
      | some db =>
        rw [hdoc] at h
        simp only at h
        cases hda : (db.accept c chain).1 with
        | true =>
          rw [hda] at h
          simp only [if_pos] at h
          cases h
          exact he5
        | false =>
          rw [hda] at h
          simp only [Bool.false_eq_true, reduceIte] at h
          unfold errFor at h
          by_cases hpb : isPagebreak c = true
          · rw [if_pos hpb] at h
            simp at h
          · rw [if_neg hpb] at h
            simp at h

/-- The container synthesized by `ListBuilder::finish` is a list / enum /
terms element, hence item-free. -/
theorem optionBind_some {α β : Type} {x : Option α} {k : α → Option β}
    {b : β} (h : (x >>= k) = some b) : ∃ a, x = some a ∧ k a = some b := by
  cases x with
  | none => simp at h
  | some a => exact ⟨a, rfl, by simpa using h⟩

theorem finish_itemFree {lb : ListBuilder} {r : Content × Chain}
    (h : lb.finish = some r) : itemFree r.1 = true := by
  unfold ListBuilder.finish at h
  cases hh : lb.items.head? with
  | none => rw [hh] at h; simp at h
  | some first =>
    rw [hh] at h
    simp only at h
    by_cases h1 : isListItem first.1 = true
    · rw [if_pos h1] at h
      obtain ⟨m, _, hm⟩ := optionBind_some h
      cases hm
      rw [itemFree_elem]
      rfl
    · rw [if_neg h1] at h
      by_cases h2 : isEnumItem first.1 = true
      · rw [if_pos h2] at h
        obtain ⟨m, _, hm⟩ := optionBind_some h
        cases hm
        rw [itemFree_elem]
        rfl
      · rw [if_neg h2] at h
        by_cases h3 : isTermItem first.1 = true
        · rw [if_pos h3] at h
          obtain ⟨m, _, hm⟩ := optionBind_some h
          cases hm
          rw [itemFree_elem]
          rfl
        · rw [if_neg h3] at h
          simp at h

theorem spaceParbreak_itemFree {c : Content}
    (h : (isSpace c || isParbreak c) = true) : itemFree c = true := by
  cases c with
  | styled inner map => simp [isSpace, isParbreak] at h
  | seq cs => simp [isSpace, isParbreak] at h
  | elem e sp =>
    rw [itemFree_elem]
    cases e <;> simp_all [isSpace, isParbreak, isItemElement]

theorem pres_acceptCore (f : Nat) : Pres (acceptCore trivialRealize f) := by
  induction f with
  | zero =>
    intro st c chain st2 _ _ h
    simp [acceptCore] at h
  | succ f ih =>
    intro st c chain st2 he hif h
    unfold acceptCore at h
    cases c with
    | styled inner map =>
      simp only [canLayoutMath, isEquation, Bool.false_and, if_neg] at h
      obtain ⟨st3, h1, h⟩ := exceptBind_ok h
      have he3 : listEmpty st3 := pres_interruptStyleF ih he h1
      obtain ⟨st4, h2, h⟩ := exceptBind_ok h
      have hin : itemFree inner = true := hif
      have he4 : listEmpty st4 := ih st3 inner (map :: chain) st4 he3 hin h2
      exact pres_interruptStyleF ih he4 h
    | seq cs =>
      simp only [canLayoutMath, isEquation, Bool.false_and, if_neg] at h
      refine pres_acceptAllF ih _ st st2 ?_ he h
      intro e hx
      simp only [List.mem_map] at hx
      obtain ⟨ch, hch, rfl⟩ := hx
      have hl : itemFreeList cs = true := hif
      exact itemFreeList_forall hl ch hch
    | elem e sp =>
      by_cases hw : (canLayoutMath (.elem e sp) && !isEquation (.elem e sp)) = true
      · rw [if_pos hw] at h
        have hwf : itemFree (wrapEquation (.elem e sp)) = true := rfl
        exact pres_acceptElem ih he (itemFree_not_item hwf) h
      · rw [if_neg hw] at h
        exact pres_acceptElem ih he (itemFree_not_item hif) h

/-- Any successful `interrupt_list` from a well-formed state leaves the
list builder with no items and an empty staged buffer, even though the
synthesized container and the detached staged entries are re-accepted
through the full accept pipeline. -/
theorem interruptListF_empties {f : Nat} {st st2 : BState}
    (hwf : ListWF st.list)
    (h : interruptListF (acceptCore trivialRealize f) st = .ok st2) :
    listEmpty st2 := by
  unfold interruptListF at h
  by_cases hli : st.list.items.isEmpty = true
  · rw [if_pos hli] at h
    cases h
    have hitems : st.list.items = [] := by simpa using hli
    refine ⟨hitems, ?_⟩
    by_contra hs
    exact (hwf.2.1 hs) hitems
  · rw [if_neg hli] at h
    simp only [] at h
    split at h
    next hfin => simp at h
    next r hfin =>
      obtain ⟨st3, hacc, h⟩ := exceptBind_ok h
      have he0 : listEmpty { st with list := ListBuilder.init } := ⟨rfl, rfl⟩
      have hif : itemFree r.1 = true := finish_itemFree hfin
      have he3 : listEmpty st3 := pres_acceptCore f _ _ _ _ he0 hif hacc
      refine pres_acceptAllF (pres_acceptCore f) st.list.staged st3 st2 ?_ he3 h
      intro e he2
      exact spaceParbreak_itemFree (hwf.1 e he2)

/-- C5: after every successful call to `Builder::interrupt_list` (from a
well-formed list-builder state: staged entries are spaces / parbreaks,
staged only non-empty alongside items, items share the first item's
func), the ListBuilder holds no items and its staged buffer is empty,
even though `interrupt_list` re-accepts the synthesized container and
the detached staged entries through the full accept pipeline.  The
external realizer is instantiated at its fixed point (no applicable show
rules). -/
theorem c5_interrupt_list_empty (f : Nat) (st st2 : BState)
    (hwf : ListWF st.list)
    (h : interrupt_list trivialRealize f st = .ok st2) :
    st2.list.items = [] ∧ st2.list.staged = [] :=
  interruptListF_empties hwf h

/-- The concrete list item used in the C5 witness. -/
def c5item : Content := .elem (.listItem (.elem (.text ['a']) 1)) 1

/-- A builder state holding one list item and one staged space. -/
def c5state : BState :=
  { doc := none, flow := FlowBuilder.init, par := ParBuilder.init,
    list := { items := [(c5item, [])], tight := true,
              staged := [(.elem .space 0, [])] } }

/-- The state `interrupt_list` produces from `c5state`. -/
def c5result : BState :=
  { doc := none,
    flow := { items := [(vAttach, []), (vAbove, []),
                        (.elem (.list [c5item] true) 0, []), (vBelow, [])],
              last_was_parbreak := false },
    par := { items := [(.elem .space 0, [])] },
    list := ListBuilder.init }

/-- Witness for C5 at a concrete state. -/
theorem c5_interrupt_list_empty_witness :
    c5result.list.items = [] ∧ c5result.list.staged = [] :=
  c5_interrupt_list_empty 5 c5state c5result
    ⟨by decide, fun _ => by simp [c5state], ⟨rfl, by decide⟩⟩ rfl

/-- C10: the implicit invariant of the ListBuilder: (1) `accept`
preserves "staged non-empty implies items non-empty"; (2) a stage push
happens only for a space or parbreak and only when at least one item has
already been collected; (3) `interrupt_list` empties items and staged
together (from any well-formed state, with the realizer at its fixed
point). -/
theorem c10_list_builder_invariant :
    (∀ (lb : ListBuilder) (c : Content) (s : Chain),
      (lb.staged ≠ [] → lb.items ≠ []) →
      ((lb.accept c s).2.staged ≠ [] → (lb.accept c s).2.items ≠ [])) ∧
    (∀ (lb : ListBuilder) (c : Content) (s : Chain),
      (lb.accept c s).2.staged = lb.staged ++ [(c, s)] →
      lb.items ≠ [] ∧ (isSpace c || isParbreak c) = true) ∧
    (∀ (f : Nat) (st st2 : BState), ListWF st.list →
      interrupt_list trivialRealize f st = .ok st2 →
      st2.list.items = [] ∧ st2.list.staged = []) := by
  refine ⟨?_, ?_, fun f st st2 hwf h => interruptListF_empties hwf h⟩
  · intro lb c s hinv
    unfold ListBuilder.accept
    by_cases h1 : (!lb.items.isEmpty && (isSpace c || isParbreak c)) = true
    · rw [if_pos h1]
      intro _
      have h2 : lb.items.isEmpty = false := by
        rcases Bool.and_eq_true _ _ |>.mp h1 with ⟨ha, _⟩
        simpa using ha
      simpa using h2
    · rw [if_neg h1]
      by_cases h2 : ((isListItem c || isEnumItem c || isTermItem c)
          && (match lb.items.head? with
              | none => true
              | some first => funcName first.1 == funcName c)) = true
      · rw [if_pos h2]
        intro hs
        simp at hs
      · rw [if_neg h2]
        exact hinv
  · intro lb c s hpush
    unfold ListBuilder.accept at hpush
    by_cases h1 : (!lb.items.isEmpty && (isSpace c || isParbreak c)) = true
    · rcases Bool.and_eq_true _ _ |>.mp h1 with ⟨ha, hb⟩
      refine ⟨by simpa using ha, hb⟩
    · rw [if_neg h1] at hpush
      by_cases h2 : ((isListItem c || isEnumItem c || isTermItem c)
          && (match lb.items.head? with
              | none => true
              | some first => funcName first.1 == funcName c)) = true
      · rw [if_pos h2] at hpush
        simp only at hpush
        have := congrArg List.length hpush
        simp at this
      · rw [if_neg h2] at hpush
        simp only at hpush
        have := congrArg List.length hpush
        simp at this

/-- The concrete enum item used in the C10 witness. -/
def c10item : Content := .elem (.enumItem (.elem (.text ['b']) 2)) 2

/-- A builder state holding one enum item and one staged parbreak. -/
def c10state : BState :=
  { doc := none, flow := FlowBuilder.init, par := ParBuilder.init,
    list := { items := [(c10item, [])], tight := true,
              staged := [(.elem .parbreak 0, [])] } }

/-- The state `interrupt_list` produces from `c10state`. -/
def c10result : BState :=
  { doc := none,
    flow := { items := [(vAttach, []), (vAbove, []),
                        (.elem (.enumE [c10item] true) 0, []), (vBelow, [])],
              last_was_parbreak := true },
    par := ParBuilder.init,
    list := ListBuilder.init }

/-- Witness for C10 at concrete inputs, exercising all three parts. -/
theorem c10_list_builder_invariant_witness :
    (((ListBuilder.init.accept c10item []).2).staged ≠ [] →
      ((ListBuilder.init.accept c10item []).2).items ≠ []) ∧
    (c10result.list.items = [] ∧ c10result.list.staged = []) :=
  ⟨c10_list_builder_invariant.1 ListBuilder.init c10item []
      (fun h => absurd rfl h),
   c10_list_builder_invariant.2.2 5 c10state c10result
      ⟨by decide, fun _ => by simp [c10state], ⟨rfl, by decide⟩⟩ rfl⟩

/-- C3 counterexample: accepting a pagebreak that is NOT weak sets
`keep_next` to true, not false — the code sets `keep_next = !weak`
(consistent with spec §4.C), so the claim (spec invariant 4) fails. -/
theorem c3_counterexample :
    ¬ (((DocBuilder.init.accept (.elem (.pagebreak false) 0) []).2).keep_next
      = false) := by
  decide

/-- C3 (amended): after `accept` consumes a pagebreak, `keep_next` equals
the negation of the pagebreak's weak flag — so it becomes false exactly
after a WEAK pagebreak — and it is false after `accept` pushes a page
element. -/
theorem c3_keep_next (db : DocBuilder) (s : Chain) :
    (∀ w sp,
      ((db.accept (.elem (.pagebreak w) sp) s).2).keep_next = !w) ∧
    (∀ body sp,
      ((db.accept (.elem (.page body) sp) s).2).keep_next = false) :=
  ⟨fun _ _ => rfl, fun _ _ => rfl⟩

/-- C6: block-layoutable content that is not one of the shape primitives
(rectangle, square, ellipse, circle, image) and not applicable passes
through `realize_block` unchanged, together with the same chain. -/
theorem c6_realize_block_passthrough (a : Applicable) (r : Realizer)
    (f : Nat) (c : Content) (s : Chain) (hl : canLayout c = true)
    (h1 : isRect c = false) (h2 : isSquare c = false)
    (h3 : isEllipse c = false) (h4 : isCircle c = false)
    (h5 : isImage c = false) (ha : a c s = false) :
    realize_block a r f c s = .ok (c, s) := by
  unfold realize_block
  rw [hl, h1, h2, h3, h4, h5, ha]
  rfl

/-- Witness for C6 at a concrete box element. -/
theorem c6_realize_block_passthrough_witness :
    realize_block (fun _ _ => false) trivialRealize 0 (.elem .box 3) [] =
      .ok (.elem .box 3, []) :=
  c6_realize_block_passthrough (fun _ _ => false) trivialRealize 0
    (.elem .box 3) [] rfl rfl rfl rfl rfl rfl rfl

/-!
## Layout: list grouping (C4)
-/

/-- The three item kinds. -/
inductive ItemKind where
  | listK
  | enumK
  | termK
deriving DecidableEq, Repr

/-- The item kind of a content node, when it is an item element. -/
def itemTag : Content → Option ItemKind
  | .elem (.listItem _) _ => some .listK
  | .elem (.enumItem _) _ => some .enumK
  | .elem (.termItem _ _) _ => some .termK
  | _ => none

/-- Feed a sequence of (content, chain) pairs directly to the list
builder, requiring every accept to succeed. -/
def feedAll (lb : ListBuilder) : List (Content × Chain) → Option ListBuilder
  | [] => some lb
  | e :: rest =>
    let r := lb.accept e.1 e.2
    if r.1 then feedAll r.2 rest else none

/-- The first item, then for each group its separators followed by its
item: items interleaved with separator runs. -/
def interleaved (first : Content × Chain)
    (groups : List (List (Content × Chain) × (Content × Chain))) :
    List (Content × Chain) :=
  first :: (groups.map (fun g => g.1 ++ [g.2])).flatten

/-- The item children of a synthesized list / enum / terms container. -/
def containerChildren : Content → List Content
  | .elem (.list cs _) _ => cs
  | .elem (.enumE cs _) _ => cs
  | .elem (.terms cs _) _ => cs
  | _ => []

theorem feedAll_cons_true {lb lb2 : ListBuilder} {e : Content × Chain}
    (h : lb.accept e.1 e.2 = (true, lb2)) (rest : List (Content × Chain)) :
    feedAll lb (e :: rest) = feedAll lb2 rest := by
  simp only [feedAll]
  rw [h]
  simp

theorem itemTag_shape {c : Content} {k : ItemKind} (h : itemTag c = some k) :
    (∃ b sp, c = .elem (.listItem b) sp ∧ k = .listK) ∨
    (∃ b sp, c = .elem (.enumItem b) sp ∧ k = .enumK) ∨
    (∃ t d sp, c = .elem (.termItem t d) sp ∧ k = .termK) := by
  cases c with
  | styled inner map => exact Option.noConfusion h
  | seq cs => exact Option.noConfusion h
  | elem e sp =>
    cases e <;> first
      | exact Option.noConfusion h
      | (cases h
         first
           | exact Or.inl ⟨_, _, rfl, rfl⟩
           | exact Or.inr (Or.inl ⟨_, _, rfl, rfl⟩)
           | exact Or.inr (Or.inr ⟨_, _, _, rfl, rfl⟩))

theorem itemTag_not_sep {c : Content} {k : ItemKind} (h : itemTag c = some k) :
    (isSpace c || isParbreak c) = false := by
  rcases itemTag_shape h with ⟨b, sp, rfl, _⟩ | ⟨b, sp, rfl, _⟩
    | ⟨t, d, sp, rfl, _⟩ <;> rfl

theorem itemTag_isItem {c : Content} {k : ItemKind} (h : itemTag c = some k) :
    (isListItem c || isEnumItem c || isTermItem c) = true := by
  rcases itemTag_shape h with ⟨b, sp, rfl, _⟩ | ⟨b, sp, rfl, _⟩
    | ⟨t, d, sp, rfl, _⟩ <;> rfl

theorem itemTag_funcName {c d : Content} {k : ItemKind}
    (hc : itemTag c = some k) (hd : itemTag d = some k) :
    funcName c = funcName d := by
  rcases itemTag_shape hc with ⟨b, sp, rfl, rfl⟩ | ⟨b, sp, rfl, rfl⟩
    | ⟨t, d2, sp, rfl, rfl⟩ <;>
  rcases itemTag_shape hd with ⟨b2, sp2, rfl, hk⟩ | ⟨b2, sp2, rfl, hk⟩
    | ⟨t2, d3, sp2, rfl, hk⟩ <;> first | rfl | exact absurd hk (by simp)

/-- `ListBuilder::accept` on a space or parbreak with items collected:
the entry is staged. -/
theorem ListBuilder.accept_sep {lb : ListBuilder} {c : Content}
    (hne : lb.items ≠ []) (hsep : (isSpace c || isParbreak c) = true)
    (chain : Chain) :
    lb.accept c chain =
      (true, { lb with staged := lb.staged ++ [(c, chain)] }) := by
  unfold ListBuilder.accept
  have h1 : lb.items.isEmpty = false := by simpa using hne
  rw [h1, hsep]
  rfl

/-- `ListBuilder::accept` on an item whose func matches the head item (or
with no items yet): the item is pushed and staged is drained into
`tight`. -/
theorem ListBuilder.accept_item {lb : ListBuilder} {c : Content}
    {k : ItemKind} (hc : itemTag c = some k)
    (hhead : match lb.items.head? with
      | none => True
      | some first => itemTag first.1 = some k)
    (chain : Chain) :
    lb.accept c chain =
      (true, { items := lb.items ++ [(c, chain)],
               tight := lb.tight && lb.staged.all (fun t => !isParbreak t.1),
               staged := [] }) := by
  unfold ListBuilder.accept
  rw [itemTag_not_sep hc]
  rw [Bool.and_false]
  rw [itemTag_isItem hc]
  cases hh : lb.items.head? with
  | none => rfl
  | some first =>
    rw [hh] at hhead
    have hfn : funcName first.1 = funcName c := itemTag_funcName hhead hc
    simp [hfn]

theorem feed_seps {rest : List (Content × Chain)} :
    ∀ (seps : List (Content × Chain)) (lb : ListBuilder),
      lb.items ≠ [] →
      (∀ s ∈ seps, (isSpace s.1 || isParbreak s.1) = true) →
      feedAll lb (seps ++ rest) =
        feedAll { lb with staged := lb.staged ++ seps } rest := by
  intro seps
  induction seps with
  | nil =>
    intro lb hne _
    simp
  | cons s seps ih =>
    intro lb hne hall
    rw [List.cons_append,
      feedAll_cons_true (ListBuilder.accept_sep hne (hall s (by simp)) s.2),
      ih _ (by simpa using hne) (fun x hx => hall x (by simp [hx]))]
    simp [List.append_assoc]

theorem feed_groups (k : ItemKind) :
    ∀ (groups : List (List (Content × Chain) × (Content × Chain)))
      (lb : ListBuilder),
      lb.staged = [] → lb.items ≠ [] →
      (∀ e ∈ lb.items, itemTag e.1 = some k) →
      (∀ g ∈ groups, itemTag g.2.1 = some k ∧
        ∀ s ∈ g.1, (isSpace s.1 || isParbreak s.1) = true) →
      ∃ lb2,
        feedAll lb ((groups.map (fun g => g.1 ++ [g.2])).flatten) = some lb2 ∧
        lb2.items = lb.items ++ groups.map (fun g => g.2) ∧
        lb2.staged = [] ∧
        lb2.tight = (lb.tight &&
          groups.all (fun g => g.1.all (fun s => !isParbreak s.1))) := by
  intro groups
  induction groups with
  | nil =>
    intro lb hst hne _ _
    exact ⟨lb, by simp [feedAll], by simp, hst, by simp⟩
  | cons g groups ih =>
    intro lb hst hne htags hg
    have hgk : itemTag g.2.1 = some k := (hg g (by simp)).1
    have hgs : ∀ s ∈ g.1, (isSpace s.1 || isParbreak s.1) = true :=
      (hg g (by simp)).2
    rw [List.map_cons, List.flatten_cons, List.append_assoc,
      feed_seps g.1 lb hne hgs, List.singleton_append]
    have hhead : match ({ lb with staged := lb.staged ++ g.1 } :
        ListBuilder).items.head? with
      | none => True
      | some first => itemTag first.1 = some k := by
      cases hh : lb.items.head? with
      | none => simp only [hh]
      | some first =>
        simp only [hh]
        exact htags first (List.mem_of_mem_head? (by rw [hh]; rfl))
    rw [feedAll_cons_true (ListBuilder.accept_item hgk hhead g.2.2)]
    have htags2 : ∀ e ∈ (lb.items ++ [(g.2.1, g.2.2)] :
        List (Content × Chain)), itemTag e.1 = some k := by
      intro e he
      rcases List.mem_append.mp he with h | h
      · exact htags e h
      · simp only [List.mem_singleton] at h
        subst h
        exact hgk
    obtain ⟨lb2, hfeed, hitems, hstaged, htight⟩ :=
      ih { items := lb.items ++ [(g.2.1, g.2.2)],
           tight := lb.tight &&
             (lb.staged ++ g.1).all (fun t => !isParbreak t.1),
           staged := [] } rfl (by simp) htags2 (fun x hx => hg x (by simp [hx]))
    refine ⟨lb2, hfeed, ?_, hstaged, ?_⟩
    · rw [hitems]
      simp [List.append_assoc]
    · rw [htight, hst]
      simp [Bool.and_assoc]

theorem optionMapM_length {α β : Type} (f : α → Option β) :
    ∀ (l : List α) (m : List β), l.mapM f = some m → m.length = l.length := by
  intro l
  induction l with
  | nil =>
    intro m h
    cases h
    rfl
  | cons a l ih =>
    intro m h
    rw [List.mapM_cons] at h
    obtain ⟨b, _, h⟩ := optionBind_some h
    obtain ⟨bs, hbs, h⟩ := optionBind_some h
    cases h
    simp [ih bs hbs]

theorem optionMapM_some {α β : Type} (f : α → Option β) :
    ∀ (l : List α), (∀ x ∈ l, ∃ y, f x = some y) →
      ∃ m, l.mapM f = some m := by
  intro l
  induction l with
  | nil => intro _; exact ⟨[], rfl⟩
  | cons a l ih =>
    intro h
    obtain ⟨b, hb⟩ := h a (by simp)
    obtain ⟨m, hm⟩ := ih (fun x hx => h x (by simp [hx]))
    refine ⟨b :: m, ?_⟩
    rw [List.mapM_cons, hb, hm]
    rfl

theorem optionBind_none {α β : Type} {x : Option α} {g : α → Option β}
    (h : (x >>= g) = none) : x = none ∨ ∃ a, x = some a ∧ g a = none := by
  cases x with
  | none => exact Or.inl rfl
  | some a => exact Or.inr ⟨a, rfl, h⟩

theorem optionMapM_none {α β : Type} (f : α → Option β) :
    ∀ l : List α, l.mapM f = none → ∃ x, x ∈ l ∧ f x = none := by
  intro l
  induction l with
  | nil =>
    intro h
    exact Option.noConfusion h
  | cons a l ih =>
    intro h
    rw [List.mapM_cons] at h
    rcases optionBind_none h with h1 | ⟨b, _, h2⟩
    · exact ⟨a, by simp, h1⟩
    · rcases optionBind_none h2 with h3 | ⟨bs, _, h4⟩
      · obtain ⟨x, hx, hfx⟩ := ih h3
        exact ⟨x, by simp [hx], hfx⟩
      · exact Option.noConfusion h4

/-- `ListBuilder::finish` on a non-empty collection of same-tag items:
it succeeds, the container carries exactly one child per item, and the
container's `tight` flag is the builder's. -/
theorem finish_of_tagged {lb : ListBuilder} {k : ItemKind}
    (hne : lb.items ≠ []) (htags : ∀ e ∈ lb.items, itemTag e.1 = some k) :
    ∃ cont shared, lb.finish = some (cont, shared) ∧
      (containerChildren cont).length = lb.items.length ∧
      tightOf cont = lb.tight := by
  cases hh : lb.items.head? with
  | none =>
    rw [List.head?_eq_none_iff] at hh
    exact absurd hh hne
  | some first =>
    have ht0 : itemTag first.1 = some k :=
      htags first (List.mem_of_mem_head? (by rw [hh]; rfl))
    rcases itemTag_shape ht0 with ⟨b, sp, hsh, hk⟩ | ⟨b, sp, hsh, hk⟩
      | ⟨t, d, sp, hsh, hk⟩
    · have h1 : isListItem first.1 = true := by rw [hsh]; rfl
      cases hfin : lb.finish with
      | none =>
        exfalso
        unfold ListBuilder.finish at hfin
        rw [hh] at hfin
        simp only at hfin
        rw [if_pos h1] at hfin
        rcases optionBind_none hfin with h2 | ⟨m, _, h3⟩
        · obtain ⟨x, hx, hfx⟩ := optionMapM_none _ lb.items h2
          rcases itemTag_shape (htags x hx) with ⟨b2, sp2, hsh2, _⟩
            | ⟨b2, sp2, hsh2, hk2⟩ | ⟨t2, d2, sp2, hsh2, hk2⟩
          · rw [hsh2] at hfx
            exact Option.noConfusion hfx
          · rw [hk] at hk2
            exact absurd hk2 (by decide)
          · rw [hk] at hk2
            exact absurd hk2 (by decide)
        · exact Option.noConfusion h3
      | some r =>
        have hfin2 := hfin
        unfold ListBuilder.finish at hfin2
        rw [hh] at hfin2
        simp only at hfin2
        rw [if_pos h1] at hfin2
        obtain ⟨m, hm, h3⟩ := optionBind_some hfin2
        rw [Option.some_inj] at h3
        subst h3
        refine ⟨_, _, rfl, ?_, rfl⟩
        simp only [containerChildren]
        exact optionMapM_length _ lb.items m hm
    · have h1 : isListItem first.1 = false := by rw [hsh]; rfl
      have h2 : isEnumItem first.1 = true := by rw [hsh]; rfl
      cases hfin : lb.finish with
      | none =>
        exfalso
        unfold ListBuilder.finish at hfin
        rw [hh] at hfin
        simp only at hfin
        rw [if_neg (by simp [h1]), if_pos h2] at hfin
        rcases optionBind_none hfin with h3 | ⟨m, _, h4⟩
        · obtain ⟨x, hx, hfx⟩ := optionMapM_none _ lb.items h3
          rcases itemTag_shape (htags x hx) with ⟨b2, sp2, hsh2, hk2⟩
            | ⟨b2, sp2, hsh2, _⟩ | ⟨t2, d2, sp2, hsh2, hk2⟩
          · rw [hk] at hk2
            exact absurd hk2 (by decide)
          · rw [hsh2] at hfx
            exact Option.noConfusion hfx
          · rw [hk] at hk2
            exact absurd hk2 (by decide)
        · exact Option.noConfusion h4
      | some r =>
        have hfin2 := hfin
        unfold ListBuilder.finish at hfin2
        rw [hh] at hfin2
        simp only at hfin2
        rw [if_neg (by simp [h1]), if_pos h2] at hfin2
        obtain ⟨m, hm, h3⟩ := optionBind_some hfin2
        rw [Option.some_inj] at h3
        subst h3
        refine ⟨_, _, rfl, ?_, rfl⟩
        simp only [containerChildren]
        exact optionMapM_length _ lb.items m hm
    · have h1 : isListItem first.1 = false := by rw [hsh]; rfl
      have h2 : isEnumItem first.1 = false := by rw [hsh]; rfl
      have h3 : isTermItem first.1 = true := by rw [hsh]; rfl
      cases hfin : lb.finish with
      | none =>
        exfalso
        unfold ListBuilder.finish at hfin
        rw [hh] at hfin
        simp only at hfin
        rw [if_neg (by simp [h1]), if_neg (by simp [h2]), if_pos h3] at hfin
        rcases optionBind_none hfin with h4 | ⟨m, _, h5⟩
        · obtain ⟨x, hx, hfx⟩ := optionMapM_none _ lb.items h4
          rcases itemTag_shape (htags x hx) with ⟨b2, sp2, hsh2, hk2⟩
            | ⟨b2, sp2, hsh2, hk2⟩ | ⟨t2, d2, sp2, hsh2, _⟩
          · rw [hk] at hk2
            exact absurd hk2 (by decide)
          · rw [hk] at hk2
            exact absurd hk2 (by decide)
          · rw [hsh2] at hfx
            exact Option.noConfusion hfx
        · exact Option.noConfusion h5
      | some r =>
        have hfin2 := hfin
        unfold ListBuilder.finish at hfin2
        rw [hh] at hfin2
        simp only at hfin2
        rw [if_neg (by simp [h1]), if_neg (by simp [h2]), if_pos h3] at hfin2
        obtain ⟨m, hm, h4⟩ := optionBind_some hfin2
        rw [Option.some_inj] at h4
        subst h4
        refine ⟨_, _, rfl, ?_, rfl⟩
        simp only [containerChildren]
        exact optionMapM_length _ lb.items m hm

/-- C4: feeding N items of one item kind, interleaved with runs of spaces
and parbreaks, to the ListBuilder succeeds, and the synthesized container
(`finish`) has exactly N item children, with its `tight` flag true if and
only if no parbreak appeared between the items. -/
theorem c4_list_grouping (first : Content × Chain)
    (groups : List (List (Content × Chain) × (Content × Chain)))
    (k : ItemKind) (hf : itemTag first.1 = some k)
    (hg : ∀ g ∈ groups, itemTag g.2.1 = some k ∧
      ∀ s ∈ g.1, (isSpace s.1 || isParbreak s.1) = true) :
    ((feedAll ListBuilder.init (interleaved first groups)).bind
        ListBuilder.finish).map
      (fun rc => ((containerChildren rc.1).length, tightOf rc.1)) =
    some (groups.length + 1,
      groups.all (fun g => g.1.all (fun s => !isParbreak s.1))) := by
  rw [show interleaved first groups =
      first :: (groups.map (fun g => g.1 ++ [g.2])).flatten from rfl,
    feedAll_cons_true (@ListBuilder.accept_item ListBuilder.init first.1 k hf
      True.intro first.2)]
  have htags1 : ∀ e ∈ (ListBuilder.init.items ++ [(first.1, first.2)] :
      List (Content × Chain)), itemTag e.1 = some k := by
    intro e he
    simp only [ListBuilder.init, List.nil_append, List.mem_singleton] at he
    subst he
    exact hf
  obtain ⟨lb2, hfeed, hitems, hstaged, htight⟩ :=
    feed_groups k groups
      { items := ListBuilder.init.items ++ [(first.1, first.2)],
        tight := ListBuilder.init.tight &&
          ListBuilder.init.staged.all (fun t => !isParbreak t.1),
        staged := [] }
      rfl (by simp) htags1 hg
  rw [hfeed]
  have htags2 : ∀ e ∈ lb2.items, itemTag e.1 = some k := by
    intro e he
    rw [hitems] at he
    rcases List.mem_append.mp he with h | h
    · simp only [ListBuilder.init, List.nil_append,
        List.mem_singleton] at h
      subst h
      exact hf
    · simp only [List.mem_map] at h
      obtain ⟨g2, hgm, rfl⟩ := h
      exact (hg g2 hgm).1
  have hne2 : lb2.items ≠ [] := by
    rw [hitems]
    simp [ListBuilder.init]
  obtain ⟨cont, shared, hfin, hlen, htf⟩ := finish_of_tagged hne2 htags2
  rw [show ((some lb2).bind ListBuilder.finish : Option (Content × Chain))
      = lb2.finish from rfl, hfin]
  have hlen2 : lb2.items.length = groups.length + 1 := by
    rw [hitems]
    simp [ListBuilder.init, Nat.add_comm]
  have hpair : ((containerChildren cont).length, tightOf cont)
      = (groups.length + 1,
         groups.all (fun g => g.1.all (fun s => !isParbreak s.1))) := by
    rw [hlen, htf, hlen2, htight]
    simp [ListBuilder.init]
  exact congrArg some hpair

/-- Witness for C4: a list item, a space, a second item, a parbreak and a
third item give a list container with three children and `tight = false`. -/
theorem c4_list_grouping_witness :
    ((feedAll ListBuilder.init (interleaved
        (Content.elem (.listItem (Content.elem .space 0)) 1, ([] : Chain))
        [([(Content.elem .space 2, ([] : Chain))],
          (Content.elem (.listItem (Content.elem .space 0)) 3, ([] : Chain))),
         ([(Content.elem .parbreak 4, ([] : Chain))],
          (Content.elem (.listItem (Content.elem .space 0)) 5,
            ([] : Chain)))])).bind
      ListBuilder.finish).map
      (fun rc => ((containerChildren rc.1).length, tightOf rc.1)) =
    some (3, false) :=
  c4_list_grouping _ _ ItemKind.listK rfl (by decide)

/-!
## Layout: pagebreak inside a container (C7)
-/

/-- C7: when the builder runs without a DocBuilder (block-level
realization, as for content inside a box), accepting a pagebreak element
fails with exactly the diagnostic "pagebreaks are not allowed inside of
containers" attached to the pagebreak's span: the pagebreak falls through
the list, paragraph and flow builders (finishing any open paragraph on
the way), the page interrupt returns immediately without a DocBuilder,
and the error tail recognizes the pagebreak.  The flow and paragraph
contents are arbitrary; the list builder has no collected items. -/
theorem c7_pagebreak_error (st : BState) (w : Bool) (sp : Nat)
    (chain : Chain) (f : Nat) (hdoc : st.doc = none)
    (hlist : st.list.items = []) :
    accept trivialRealize (f + 2) st (.elem (.pagebreak w) sp) chain =
      .error (.diag sp "pagebreaks are not allowed inside of containers") := by
  obtain ⟨doc, flow, par, list⟩ := st
  obtain ⟨litems, ltight, lstaged⟩ := list
  obtain ⟨fitems, flast⟩ := flow
  obtain ⟨pitems⟩ := par
  simp only at hdoc hlist
  subst hdoc
  subst hlist
  cases pitems <;> cases flast <;> rfl

/-- Witness for C7: the container builder (`Builder::new` without a
DocBuilder) rejects a non-weak pagebreak with the exact diagnostic. -/
theorem c7_pagebreak_error_witness :
    (Builder.new false).doc = none ∧ (Builder.new false).list.items = [] ∧
    accept trivialRealize 2 (Builder.new false)
      (.elem (.pagebreak false) 7) [] =
      .error (.diag 7 "pagebreaks are not allowed inside of containers") :=
  ⟨rfl, rfl, c7_pagebreak_error (Builder.new false) false 7 [] 0 rfl rfl⟩

end Typst
